import Mathlib

/-!
# Verification of the arbitrage opportunity detection and validation pipeline

Shallow embedding of `src/services/arbitrageService.ts` (and the small slices of
`src/services/exchangeConfigs.ts` the claims touch) over exact rationals.

Modelling conventions:
* JavaScript `number` values that can be non-finite (parsed payload prices,
  order-book levels) are modelled by `JsNum`; arithmetic that the code only
  performs after `Number.isFinite` guards is carried out on the underlying `ℚ`.
* All other arithmetic is exact over `ℚ` (the idealisation of IEEE doubles used
  throughout this development); `x.toFixed(2)` re-parsed with `Number(...)` is
  modelled by rounding to the nearest multiple of `1/100`.
* Effectful venue I/O is modelled by explicit state: a `World` value records the
  outcome of every network call the scan would make (prices, 24h tickers,
  order books, currency metadata), and provider calls that can reject are
  modelled with `Except`.
* JS iteration artefacts are modelled faithfully: `new Map(entries).get` keeps
  the *last* entry for a duplicated key, object-literal merges keep insertion
  order, and `Promise.all` rejects when any member rejects.
-/

/-- A JavaScript `number`: either a finite value (idealised as a rational) or
one of the non-finite values `NaN`, `Infinity`, `-Infinity`. -/
inductive JsNum where
  | fin (val : ℚ)
  | nan
  | posInf
  | negInf
deriving DecidableEq, Repr

/-- `Number.isFinite`, returning the finite payload. -/
def JsNum.finite? : JsNum → Option ℚ
  | .fin v => some v
  | _ => none

/-- `Number.isFinite` as a boolean. -/
def JsNum.isFinite (x : JsNum) : Bool := x.finite?.isSome

/-- Rounding used to model `Number(x.toFixed(2))`. -/
def round2 (x : ℚ) : ℚ := round (x * 100) / 100

theorem round2_mono {x y : ℚ} (h : x ≤ y) : round2 x ≤ round2 y := by
  unfold round2
  have hr : round (x * 100) ≤ round (y * 100) := by
    rw [round_eq, round_eq]
    exact Int.floor_le_floor (by nlinarith)
  have h100 : (0 : ℚ) ≤ 100 := by norm_num
  exact div_le_div_of_nonneg_right (by exact_mod_cast hr) (by norm_num)

/-! ## Order books and the VWAP fill simulation

Embedding of `vwapBuyForQuoteAmount` / `vwapSellForBaseAmount`
(`arbitrageService.ts` lines 435-471).  The loops skip levels whose price or
amount is non-finite or non-positive (`continue`), which is modelled by
filtering the book down to its valid levels first and then walking the
remaining, already-valid levels. -/

/-- `OrderBook`: `bids`/`asks` are sequences of `(price, baseAmount)` levels.
Raw payload data, so the entries are `JsNum`s. -/
structure OrderBook where
  bids : List (JsNum × JsNum)
  asks : List (JsNum × JsNum)
deriving DecidableEq, Repr

/-- The guard `Number.isFinite(price) && Number.isFinite(amount) && price > 0 && amount > 0`
from the fill loops, extracting the rational payload. -/
def levelOk (l : JsNum × JsNum) : Option (ℚ × ℚ) :=
  match l with
  | (.fin p, .fin a) => if 0 < p ∧ 0 < a then some (p, a) else none
  | _ => none

/-- The sub-sequence of levels the fill loops actually consume. -/
def validLevels (ls : List (JsNum × JsNum)) : List (ℚ × ℚ) :=
  ls.filterMap levelOk

/-- Result record `{ executablePrice, baseAmount }` of a fill simulation. -/
structure FillResult where
  executablePrice : ℚ
  baseAmount : ℚ
deriving DecidableEq, Repr

/-- The loop body of `vwapBuyForQuoteAmount`: walk valid ask levels, taking
`min(remainingQuote, price*amount)` at each, stopping when the remaining
notional drops to `1e-9` or below.  Returns
`(baseBought, quoteSpent, remainingQuote)`. -/
def buyWalk : List (ℚ × ℚ) → ℚ → ℚ × ℚ × ℚ
  | [], r => (0, 0, r)
  | (p, a) :: rest, r =>
      let take := min r (p * a)
      if r - take ≤ 1e-9 then (take / p, take, r - take)
      else
        let w := buyWalk rest (r - take)
        (take / p + w.1, take + w.2.1, w.2.2)

/-- `vwapBuyForQuoteAmount(book, quoteAmount)`: `null` when no base was bought
or more than `1e-6` of the notional is left unfilled. -/
def vwapBuyForQuoteAmount (book : OrderBook) (quoteAmount : ℚ) : Option FillResult :=
  let w := buyWalk (validLevels book.asks) quoteAmount
  if w.1 ≤ 0 ∨ 1e-6 < w.2.2 then none
  else some { executablePrice := w.2.1 / w.1, baseAmount := w.1 }

/-- The loop body of `vwapSellForBaseAmount`: walk valid bid levels, taking
`min(remainingBase, amount)` at each, stopping when the remaining base drops to
`1e-12` or below.  Returns `(baseSold, quoteReceived, remainingBase)`. -/
def sellWalk : List (ℚ × ℚ) → ℚ → ℚ × ℚ × ℚ
  | [], r => (0, 0, r)
  | (p, a) :: rest, r =>
      let take := min r a
      if r - take ≤ 1e-12 then (take, take * p, r - take)
      else
        let w := sellWalk rest (r - take)
        (take + w.1, take * p + w.2.1, w.2.2)

/-- `vwapSellForBaseAmount(book, baseAmount)`: `null` when nothing was sold or
more than `1e-9` of the base amount is left unsold. -/
def vwapSellForBaseAmount (book : OrderBook) (baseAmount : ℚ) : Option FillResult :=
  let w := sellWalk (validLevels book.bids) baseAmount
  if w.1 ≤ 0 ∨ 1e-9 < w.2.2 then none
  else some { executablePrice := w.2.1 / w.1, baseAmount := w.1 }

/-! ### Reference functions for the walk, written from the spec's words

`consumedQuote`/`greedyBase` describe the sequential ("walk the ask side from
best price upward, consuming levels until the notional is filled") greedy
consumption: `consumedQuote ls r` is the quote actually spent by the loop and
`greedyBase ls c` the base amount bought when `c` quote is consumed
sequentially.  `consumedBase`/`greedyQuote` are the bid-side analogues. -/

/-- Quote spent by the buy walk starting from remaining notional `r`. -/
def consumedQuote : List (ℚ × ℚ) → ℚ → ℚ
  | [], _ => 0
  | (p, a) :: rest, r =>
      let take := min r (p * a)
      if r - take ≤ 1e-9 then take else take + consumedQuote rest (r - take)

/-- Base bought when `c` quote is consumed sequentially from the front of the
book (spec: consume levels in sequence until the amount is exhausted). -/
def greedyBase : List (ℚ × ℚ) → ℚ → ℚ
  | [], _ => 0
  | (p, a) :: rest, c => if c ≤ p * a then c / p else a + greedyBase rest (c - p * a)

/-- Base sold by the sell walk starting from remaining base `r`. -/
def consumedBase : List (ℚ × ℚ) → ℚ → ℚ
  | [], _ => 0
  | (_, a) :: rest, r =>
      let take := min r a
      if r - take ≤ 1e-12 then take else take + consumedBase rest (r - take)

/-- Quote received when `c` base is sold sequentially from the front of the
book. -/
def greedyQuote : List (ℚ × ℚ) → ℚ → ℚ
  | [], _ => 0
  | (p, a) :: rest, c => if c ≤ a then c * p else a * p + greedyQuote rest (c - a)

/-- Total quote depth `Σ price*amount` of a (valid) level list. -/
def quoteDepth (ls : List (ℚ × ℚ)) : ℚ := (ls.map (fun l => l.1 * l.2)).sum

/-- Total base depth `Σ amount` of a (valid) level list. -/
def baseDepth (ls : List (ℚ × ℚ)) : ℚ := (ls.map (fun l => l.2)).sum

/-- A level list is valid when every price and amount is strictly positive. -/
def PosLevels (ls : List (ℚ × ℚ)) : Prop := ∀ l ∈ ls, 0 < l.1 ∧ 0 < l.2

theorem greedyBase_zero (ls : List (ℚ × ℚ)) (hls : PosLevels ls) : greedyBase ls 0 = 0 := by
  cases ls with
  | nil => simp [greedyBase]
  | cons l rest =>
      obtain ⟨p, a⟩ := l
      obtain ⟨hp, ha⟩ := hls (p, a) (List.mem_cons_self _ _)
      have : (0 : ℚ) ≤ p * a := le_of_lt (mul_pos hp ha)
      simp [greedyBase, this]

theorem consumedQuote_nonneg (ls : List (ℚ × ℚ)) (r : ℚ) (hls : PosLevels ls) (hr : 0 ≤ r) :
    0 ≤ consumedQuote ls r := by
  induction ls generalizing r with
  | nil => simp [consumedQuote]
  | cons l rest ih =>
      obtain ⟨p, a⟩ := l
      obtain ⟨hp, ha⟩ := hls (p, a) (List.mem_cons_self _ _)
      have hrest : PosLevels rest := fun x hx => hls x (List.mem_cons_of_mem _ hx)
      have hL : 0 < p * a := mul_pos hp ha
      have htake : 0 ≤ min r (p * a) := le_min hr (le_of_lt hL)
      simp only [consumedQuote]
      by_cases hbr : r - min r (p * a) ≤ 1e-9
      · simpa [hbr] using htake
      · have hr' : (0 : ℚ) ≤ r - min r (p * a) := by
          have : (0 : ℚ) < 1e-9 := by norm_num
          linarith [not_le.mp hbr]
        simp only [if_neg hbr]
        exact add_nonneg htake (ih _ hrest hr')

/-- In the non-break branch the level is fully consumed. -/
theorem take_eq_of_not_break {r p a : ℚ} (hbr : ¬ r - min r (p * a) ≤ 1e-9) :
    min r (p * a) = p * a ∧ 1e-9 < r - p * a := by
  rcases le_total r (p * a) with h | h
  · exfalso
    apply hbr
    rw [min_eq_left h]
    norm_num
  · refine ⟨min_eq_right h, ?_⟩
    have := not_le.mp hbr
    rwa [min_eq_right h] at this

theorem buyWalk_eq_greedy (ls : List (ℚ × ℚ)) (r : ℚ) (hls : PosLevels ls) (hr : 0 ≤ r) :
    buyWalk ls r =
      (greedyBase ls (consumedQuote ls r), consumedQuote ls r, r - consumedQuote ls r) := by
  induction ls generalizing r with
  | nil => simp [buyWalk, greedyBase, consumedQuote]
  | cons l rest ih =>
      obtain ⟨p, a⟩ := l
      obtain ⟨hp, ha⟩ := hls (p, a) (List.mem_cons_self _ _)
      have hrest : PosLevels rest := fun x hx => hls x (List.mem_cons_of_mem _ hx)
      have hL : 0 < p * a := mul_pos hp ha
      simp only [buyWalk, greedyBase, consumedQuote]
      by_cases hbr : r - min r (p * a) ≤ 1e-9
      · simp only [if_pos hbr]
        have hmin : min r (p * a) ≤ p * a := min_le_right _ _
        simp [if_pos hmin]
      · obtain ⟨htake, hleft⟩ := take_eq_of_not_break hbr
        have hr' : (0 : ℚ) ≤ r - p * a := by linarith
        have hcq : 0 ≤ consumedQuote rest (r - p * a) := consumedQuote_nonneg _ _ hrest hr'
        have hbr2 : ¬ r - p * a ≤ 1e-9 := not_le.mpr hleft
        simp only [if_neg hbr, htake, if_neg hbr2]
        rw [ih (r - p * a) hrest hr']
        rcases eq_or_lt_of_le hcq with hzero | hpos
        · rw [← hzero]
          simp only [add_zero, if_pos le_rfl]
          rw [greedyBase_zero rest hrest]
          refine Prod.ext ?_ (Prod.ext ?_ ?_) <;> simp
        · have hcond : ¬ p * a + consumedQuote rest (r - p * a) ≤ p * a := by linarith
          simp only [if_neg hcond]
          refine Prod.ext ?_ (Prod.ext ?_ ?_) <;> simp
          · field_simp
          · ring

theorem quoteDepth_nonneg (ls : List (ℚ × ℚ)) (hls : PosLevels ls) : 0 ≤ quoteDepth ls := by
  induction ls with
  | nil => simp [quoteDepth]
  | cons l rest ih =>
      obtain ⟨hp, ha⟩ := hls l (List.mem_cons_self _ _)
      have hrest : PosLevels rest := fun x hx => hls x (List.mem_cons_of_mem _ hx)
      simp only [quoteDepth, List.map_cons, List.sum_cons]
      have h2 := ih hrest
      simp only [quoteDepth] at h2
      nlinarith [mul_pos hp ha]

theorem consumedQuote_le_self (ls : List (ℚ × ℚ)) (r : ℚ) (hr : 0 ≤ r) :
    consumedQuote ls r ≤ r := by
  induction ls generalizing r with
  | nil => simpa [consumedQuote] using hr
  | cons l rest ih =>
      obtain ⟨p, a⟩ := l
      simp only [consumedQuote]
      by_cases hbr : r - min r (p * a) ≤ 1e-9
      · simp only [if_pos hbr]
        exact min_le_left _ _
      · simp only [if_neg hbr]
        have hr' : (0 : ℚ) ≤ r - min r (p * a) := by
          have := not_le.mp hbr
          have : (0 : ℚ) < 1e-9 := by norm_num
          linarith [not_le.mp hbr]
        have := ih (r - min r (p * a)) hr'
        linarith

theorem consumedQuote_le_depth (ls : List (ℚ × ℚ)) (r : ℚ) (hls : PosLevels ls) :
    consumedQuote ls r ≤ quoteDepth ls := by
  induction ls generalizing r with
  | nil => simp [consumedQuote, quoteDepth]
  | cons l rest ih =>
      obtain ⟨p, a⟩ := l
      have hrest : PosLevels rest := fun x hx => hls x (List.mem_cons_of_mem _ hx)
      simp only [consumedQuote, quoteDepth, List.map_cons, List.sum_cons]
      by_cases hbr : r - min r (p * a) ≤ 1e-9
      · simp only [if_pos hbr]
        have h1 : min r (p * a) ≤ p * a := min_le_right _ _
        have h2 : (0 : ℚ) ≤ quoteDepth rest := quoteDepth_nonneg rest hrest
        simp only [quoteDepth] at h2
        linarith
      · obtain ⟨htake, hleft⟩ := take_eq_of_not_break hbr
        have hbr2 : ¬ r - p * a ≤ 1e-9 := not_le.mpr hleft
        simp only [if_neg hbr, htake, if_neg hbr2]
        have := ih (r - p * a) hrest
        simp only [quoteDepth] at this
        linarith

/-- When the buy walk terminates, either the notional was filled to within the
`1e-9` break tolerance, or the book ran dry: the consumed quote is exactly
`min r (quoteDepth ls)`. -/
theorem consumedQuote_lower (ls : List (ℚ × ℚ)) (r : ℚ) (hls : PosLevels ls) (hr : 0 ≤ r) :
    r - consumedQuote ls r ≤ 1e-9 ∨ consumedQuote ls r = min r (quoteDepth ls) := by
  induction ls generalizing r with
  | nil =>
      right
      simp [consumedQuote, quoteDepth, min_eq_right hr]
  | cons l rest ih =>
      obtain ⟨p, a⟩ := l
      obtain ⟨hp, ha⟩ := hls (p, a) (List.mem_cons_self _ _)
      have hrest : PosLevels rest := fun x hx => hls x (List.mem_cons_of_mem _ hx)
      have hL : 0 < p * a := mul_pos hp ha
      simp only [consumedQuote, quoteDepth, List.map_cons, List.sum_cons]
      by_cases hbr : r - min r (p * a) ≤ 1e-9
      · left
        simp only [if_pos hbr]
        exact hbr
      · obtain ⟨htake, hleft⟩ := take_eq_of_not_break hbr
        have hr' : (0 : ℚ) ≤ r - p * a := by linarith
        have hbr2 : ¬ r - p * a ≤ 1e-9 := not_le.mpr hleft
        simp only [if_neg hbr, htake, if_neg hbr2]
        rcases ih (r - p * a) hrest hr' with hbreak | hexact
        · left
          linarith
        · right
          rw [hexact]
          simp only [quoteDepth]
          rw [← min_add_add_left]
          congr 1
          ring

theorem consumedQuote_mono (ls : List (ℚ × ℚ)) (r1 r2 : ℚ) (hls : PosLevels ls)
    (h1 : 0 ≤ r1) (h12 : r1 ≤ r2) : consumedQuote ls r1 ≤ consumedQuote ls r2 := by
  induction ls generalizing r1 r2 with
  | nil => simp [consumedQuote]
  | cons l rest ih =>
      obtain ⟨p, a⟩ := l
      obtain ⟨hp, ha⟩ := hls (p, a) (List.mem_cons_self _ _)
      have hrest : PosLevels rest := fun x hx => hls x (List.mem_cons_of_mem _ hx)
      have hL : 0 < p * a := mul_pos hp ha
      simp only [consumedQuote]
      by_cases hbr1 : r1 - min r1 (p * a) ≤ 1e-9
      · simp only [if_pos hbr1]
        by_cases hbr2 : r2 - min r2 (p * a) ≤ 1e-9
        · simp only [if_pos hbr2]
          exact min_le_min h12 le_rfl
        · obtain ⟨htake2, hleft2⟩ := take_eq_of_not_break hbr2
          have hbr2n : ¬ r2 - p * a ≤ 1e-9 := not_le.mpr hleft2
          simp only [if_neg hbr2, htake2, if_neg hbr2n]
          have hcq : 0 ≤ consumedQuote rest (r2 - p * a) :=
            consumedQuote_nonneg _ _ hrest (by linarith)
          have : min r1 (p * a) ≤ p * a := min_le_right _ _
          linarith
      · obtain ⟨htake1, hleft1⟩ := take_eq_of_not_break hbr1
        have hge : p * a ≤ r1 := by linarith
        have hbr2 : ¬ r2 - min r2 (p * a) ≤ 1e-9 := by
          rw [min_eq_right (by linarith : p * a ≤ r2)]
          intro hcon
          linarith
        obtain ⟨htake2, hleft2⟩ := take_eq_of_not_break hbr2
        have hbr1n : ¬ r1 - p * a ≤ 1e-9 := not_le.mpr hleft1
        have hbr2n : ¬ r2 - p * a ≤ 1e-9 := not_le.mpr hleft2
        simp only [if_neg hbr1, if_neg hbr2, htake1, htake2, if_neg hbr1n, if_neg hbr2n]
        have := ih (r1 - p * a) (r2 - p * a) hrest (by linarith) (by linarith)
        linarith

theorem consumedQuote_pos (ls : List (ℚ × ℚ)) (r : ℚ) (hls : PosLevels ls)
    (hne : ls ≠ []) (hr : 0 < r) : 0 < consumedQuote ls r := by
  cases ls with
  | nil => exact absurd rfl hne
  | cons l rest =>
      obtain ⟨p, a⟩ := l
      obtain ⟨hp, ha⟩ := hls (p, a) (List.mem_cons_self _ _)
      have hrest : PosLevels rest := fun x hx => hls x (List.mem_cons_of_mem _ hx)
      have hL : 0 < p * a := mul_pos hp ha
      have htake : 0 < min r (p * a) := lt_min hr hL
      simp only [consumedQuote]
      by_cases hbr : r - min r (p * a) ≤ 1e-9
      · simpa [hbr] using htake
      · simp only [if_neg hbr]
        have hcq : 0 ≤ consumedQuote rest (r - min r (p * a)) := by
          apply consumedQuote_nonneg _ _ hrest
          have : (0 : ℚ) < 1e-9 := by norm_num
          linarith [not_le.mp hbr]
        linarith

theorem greedyBase_nonneg (ls : List (ℚ × ℚ)) (c : ℚ) (hls : PosLevels ls) (hc : 0 ≤ c) :
    0 ≤ greedyBase ls c := by
  induction ls generalizing c with
  | nil => simp [greedyBase]
  | cons l rest ih =>
      obtain ⟨p, a⟩ := l
      obtain ⟨hp, ha⟩ := hls (p, a) (List.mem_cons_self _ _)
      have hrest : PosLevels rest := fun x hx => hls x (List.mem_cons_of_mem _ hx)
      simp only [greedyBase]
      by_cases hcL : c ≤ p * a
      · simp only [if_pos hcL]
        positivity
      · simp only [if_neg hcL]
        have := ih (c - p * a) hrest (by nlinarith [mul_pos hp ha])
        linarith

theorem greedyBase_pos (ls : List (ℚ × ℚ)) (c : ℚ) (hls : PosLevels ls)
    (hne : ls ≠ []) (hc : 0 < c) : 0 < greedyBase ls c := by
  cases ls with
  | nil => exact absurd rfl hne
  | cons l rest =>
      obtain ⟨p, a⟩ := l
      obtain ⟨hp, ha⟩ := hls (p, a) (List.mem_cons_self _ _)
      have hrest : PosLevels rest := fun x hx => hls x (List.mem_cons_of_mem _ hx)
      simp only [greedyBase]
      by_cases hcL : c ≤ p * a
      · simp only [if_pos hcL]
        positivity
      · simp only [if_neg hcL]
        have := greedyBase_nonneg rest (c - p * a) hrest (by nlinarith [mul_pos hp ha])
        linarith

/-- With every price at least `p`, consuming `c` quote yields at most `c / p`
base. -/
theorem greedyBase_le_div (ls : List (ℚ × ℚ)) (c p : ℚ) (hls : PosLevels ls)
    (hp : 0 < p) (hbound : ∀ l ∈ ls, p ≤ l.1) (hc : 0 ≤ c) :
    greedyBase ls c ≤ c / p := by
  induction ls generalizing c with
  | nil =>
      simp only [greedyBase]
      positivity
  | cons l rest ih =>
      obtain ⟨p1, a1⟩ := l
      obtain ⟨hp1, ha1⟩ := hls (p1, a1) (List.mem_cons_self _ _)
      have hrest : PosLevels rest := fun x hx => hls x (List.mem_cons_of_mem _ hx)
      have hple : p ≤ p1 := hbound (p1, a1) (List.mem_cons_self _ _)
      have hbrest : ∀ l ∈ rest, p ≤ l.1 := fun x hx => hbound x (List.mem_cons_of_mem _ hx)
      simp only [greedyBase]
      by_cases hcL : c ≤ p1 * a1
      · simp only [if_pos hcL]
        rw [div_le_div_iff hp1 hp]
        nlinarith
      · simp only [if_neg hcL]
        have hc' : (0 : ℚ) ≤ c - p1 * a1 := by nlinarith [mul_pos hp1 ha1]
        have hIH := ih (c - p1 * a1) hrest hbrest hc'
        have hsplit : (c - p1 * a1) / p = c / p - (p1 * a1) / p := by ring
        rw [hsplit] at hIH
        have ha1le : a1 ≤ (p1 * a1) / p := by
          rw [le_div_iff hp]
          nlinarith
        linarith

/-- With every price at least `p`, the greedy base amount is `1/p`-Lipschitz
in the consumed quote. -/
theorem greedyBase_lipschitz (ls : List (ℚ × ℚ)) (x1 x2 p : ℚ) (hls : PosLevels ls)
    (hp : 0 < p) (hbound : ∀ l ∈ ls, p ≤ l.1) (hx1 : 0 ≤ x1) (h12 : x1 ≤ x2) :
    greedyBase ls x2 - greedyBase ls x1 ≤ (x2 - x1) / p := by
  induction ls generalizing x1 x2 with
  | nil =>
      have : (0 : ℚ) ≤ (x2 - x1) / p := div_nonneg (by linarith) (le_of_lt hp)
      simpa [greedyBase] using this
  | cons l rest ih =>
      obtain ⟨p1, a1⟩ := l
      obtain ⟨hp1, ha1⟩ := hls (p1, a1) (List.mem_cons_self _ _)
      have hrest : PosLevels rest := fun x hx => hls x (List.mem_cons_of_mem _ hx)
      have hple : p ≤ p1 := hbound (p1, a1) (List.mem_cons_self _ _)
      have hbrest : ∀ l ∈ rest, p ≤ l.1 := fun x hx => hbound x (List.mem_cons_of_mem _ hx)
      have hL : 0 < p1 * a1 := mul_pos hp1 ha1
      simp only [greedyBase]
      by_cases h2L : x2 ≤ p1 * a1
      · have h1L : x1 ≤ p1 * a1 := le_trans h12 h2L
        simp only [if_pos h2L, if_pos h1L]
        have heq : x2 / p1 - x1 / p1 = (x2 - x1) / p1 := by ring
        rw [heq, div_le_div_iff hp1 hp]
        nlinarith
      · simp only [if_neg h2L]
        by_cases h1L : x1 ≤ p1 * a1
        · simp only [if_pos h1L]
          have hrle := greedyBase_le_div rest (x2 - p1 * a1) p hrest hp hbrest (by linarith)
          have hne1 : p1 ≠ 0 := ne_of_gt hp1
          have ha1eq : a1 - x1 / p1 = (p1 * a1 - x1) / p1 := by
            field_simp
            ring
          have hstep : (p1 * a1 - x1) / p1 ≤ (p1 * a1 - x1) / p := by
            rw [div_le_div_iff hp1 hp]
            nlinarith
          have hsplit : (x2 - x1) / p = (p1 * a1 - x1) / p + (x2 - p1 * a1) / p := by ring
          linarith
        · simp only [if_neg h1L]
          have hkey := ih (x1 - p1 * a1) (x2 - p1 * a1) hrest hbrest (by linarith) (by linarith)
          have heq : (x2 - p1 * a1) - (x1 - p1 * a1) = x2 - x1 := by ring
          rw [heq] at hkey
          linarith

/-- Price sortedness of a level list (asks ascending). -/
def SortedAsks (ls : List (ℚ × ℚ)) : Prop := List.Pairwise (fun l1 l2 => l1.1 ≤ l2.1) ls

/-- On a sorted book the greedy average price is non-decreasing in the
consumed quote: `c1 / B(c1) ≤ c2 / B(c2)` in cross-multiplied form. -/
theorem greedyBase_ratio_mono (ls : List (ℚ × ℚ)) (c1 c2 : ℚ) (hls : PosLevels ls)
    (hsorted : SortedAsks ls) (hc1 : 0 < c1) (h12 : c1 ≤ c2) :
    c1 * greedyBase ls c2 ≤ c2 * greedyBase ls c1 := by
  induction ls generalizing c1 c2 with
  | nil => simp [greedyBase]
  | cons l rest ih =>
      obtain ⟨p1, a1⟩ := l
      obtain ⟨hp1, ha1⟩ := hls (p1, a1) (List.mem_cons_self _ _)
      have hrest : PosLevels rest := fun x hx => hls x (List.mem_cons_of_mem _ hx)
      have hL : 0 < p1 * a1 := mul_pos hp1 ha1
      have hhead : ∀ l ∈ rest, p1 ≤ l.1 := by
        intro x hx
        exact (List.pairwise_cons.mp hsorted).1 x hx
      have hsrest : SortedAsks rest := (List.pairwise_cons.mp hsorted).2
      simp only [greedyBase]
      by_cases h2L : c2 ≤ p1 * a1
      · have h1L : c1 ≤ p1 * a1 := le_trans h12 h2L
        simp only [if_pos h2L, if_pos h1L]
        have : c1 * (c2 / p1) = c2 * (c1 / p1) := by ring
        linarith
      · simp only [if_neg h2L]
        by_cases h1L : c1 ≤ p1 * a1
        · simp only [if_pos h1L]
          have hball : ∀ l ∈ (p1, a1) :: rest, p1 ≤ l.1 := by
            intro x hx
            rcases List.mem_cons.mp hx with h | h
            · rw [h]
            · exact hhead x h
          have hwhole := greedyBase_le_div ((p1, a1) :: rest) c2 p1 hls hp1 hball (by linarith)
          simp only [greedyBase, if_neg h2L] at hwhole
          have hmul := mul_le_mul_of_nonneg_left hwhole (le_of_lt hc1)
          have : c1 * (c2 / p1) = c2 * (c1 / p1) := by ring
          linarith
        · simp only [if_neg h1L]
          have hx1 : 0 < c1 - p1 * a1 := by linarith [not_le.mp h1L]
          have hIH := ih (c1 - p1 * a1) (c2 - p1 * a1) hrest hsrest hx1 (by linarith)
          have hLip := greedyBase_lipschitz rest (c1 - p1 * a1) (c2 - p1 * a1) p1 hrest hp1
            hhead (le_of_lt hx1) (by linarith)
          have hB1 : 0 ≤ greedyBase rest (c1 - p1 * a1) :=
            greedyBase_nonneg rest _ hrest (le_of_lt hx1)
          have hLipm : p1 * a1 * (greedyBase rest (c2 - p1 * a1) - greedyBase rest (c1 - p1 * a1))
              ≤ a1 * (c2 - c1) := by
            have hmul := mul_le_mul_of_nonneg_left hLip (le_of_lt hL)
            have heq : p1 * a1 * (((c2 - p1 * a1) - (c1 - p1 * a1)) / p1) = a1 * (c2 - c1) := by
              field_simp
              ring
            linarith [hmul.trans_eq heq]
          nlinarith [hIH, hLipm]

theorem validLevels_pos (ls : List (JsNum × JsNum)) : PosLevels (validLevels ls) := by
  intro l hl
  simp only [validLevels, List.mem_filterMap] at hl
  obtain ⟨raw, _, hok⟩ := hl
  unfold levelOk at hok
  rcases raw with ⟨rp, ra⟩
  cases rp <;> cases ra <;> simp at hok
  rcases hok with ⟨⟨hp, ha⟩, heq⟩
  rw [← heq]
  exact ⟨hp, ha⟩

/-- A fully finite, positive raw book side. -/
def rawLevels (lvls : List (ℚ × ℚ)) : List (JsNum × JsNum) :=
  lvls.map (fun l => (JsNum.fin l.1, JsNum.fin l.2))

theorem validLevels_raw (lvls : List (ℚ × ℚ)) (h : PosLevels lvls) :
    validLevels (rawLevels lvls) = lvls := by
  induction lvls with
  | nil => simp [validLevels, rawLevels]
  | cons l rest ih =>
      obtain ⟨hp, ha⟩ := h l (List.mem_cons_self _ _)
      have hrest : PosLevels rest := fun x hx => h x (List.mem_cons_of_mem _ hx)
      obtain ⟨p, a⟩ := l
      simp only [validLevels, rawLevels, List.map_cons, List.filterMap_cons] at *
      simp [levelOk, hp, ha, ih hrest]

/-! ### Sell-side analogues -/

theorem take_eq_of_not_break12 {r a : ℚ} (hbr : ¬ r - min r a ≤ 1e-12) :
    min r a = a ∧ 1e-12 < r - a := by
  rcases le_total r a with h | h
  · exfalso
    apply hbr
    rw [min_eq_left h]
    norm_num
  · refine ⟨min_eq_right h, ?_⟩
    have := not_le.mp hbr
    rwa [min_eq_right h] at this

theorem baseDepth_nonneg (ls : List (ℚ × ℚ)) (hls : PosLevels ls) : 0 ≤ baseDepth ls := by
  induction ls with
  | nil => simp [baseDepth]
  | cons l rest ih =>
      obtain ⟨_, ha⟩ := hls l (List.mem_cons_self _ _)
      have hrest : PosLevels rest := fun x hx => hls x (List.mem_cons_of_mem _ hx)
      have h2 := ih hrest
      simp only [baseDepth, List.map_cons, List.sum_cons] at *
      linarith

theorem consumedBase_nonneg (ls : List (ℚ × ℚ)) (r : ℚ) (hls : PosLevels ls) (hr : 0 ≤ r) :
    0 ≤ consumedBase ls r := by
  induction ls generalizing r with
  | nil => simp [consumedBase]
  | cons l rest ih =>
      obtain ⟨p, a⟩ := l
      obtain ⟨hp, ha⟩ := hls (p, a) (List.mem_cons_self _ _)
      have hrest : PosLevels rest := fun x hx => hls x (List.mem_cons_of_mem _ hx)
      have htake : 0 ≤ min r a := le_min hr (le_of_lt ha)
      simp only [consumedBase]
      by_cases hbr : r - min r a ≤ 1e-12
      · simpa [hbr] using htake
      · have hr' : (0 : ℚ) ≤ r - min r a := by
          have : (0 : ℚ) < 1e-12 := by norm_num
          linarith [not_le.mp hbr]
        simp only [if_neg hbr]
        exact add_nonneg htake (ih _ hrest hr')

theorem greedyQuote_zero (ls : List (ℚ × ℚ)) (hls : PosLevels ls) : greedyQuote ls 0 = 0 := by
  cases ls with
  | nil => simp [greedyQuote]
  | cons l rest =>
      obtain ⟨p, a⟩ := l
      obtain ⟨hp, ha⟩ := hls (p, a) (List.mem_cons_self _ _)
      simp [greedyQuote, le_of_lt ha]

theorem sellWalk_eq_greedy (ls : List (ℚ × ℚ)) (r : ℚ) (hls : PosLevels ls) (hr : 0 ≤ r) :
    sellWalk ls r =
      (consumedBase ls r, greedyQuote ls (consumedBase ls r), r - consumedBase ls r) := by
  induction ls generalizing r with
  | nil => simp [sellWalk, greedyQuote, consumedBase]
  | cons l rest ih =>
      obtain ⟨p, a⟩ := l
      obtain ⟨hp, ha⟩ := hls (p, a) (List.mem_cons_self _ _)
      have hrest : PosLevels rest := fun x hx => hls x (List.mem_cons_of_mem _ hx)
      simp only [sellWalk, greedyQuote, consumedBase]
      by_cases hbr : r - min r a ≤ 1e-12
      · simp only [if_pos hbr]
        have hmin : min r a ≤ a := min_le_right _ _
        simp [if_pos hmin]
      · obtain ⟨htake, hleft⟩ := take_eq_of_not_break12 hbr
        have hr' : (0 : ℚ) ≤ r - a := by linarith
        have hcq : 0 ≤ consumedBase rest (r - a) := consumedBase_nonneg _ _ hrest hr'
        have hbr2 : ¬ r - a ≤ 1e-12 := not_le.mpr hleft
        simp only [if_neg hbr, htake, if_neg hbr2]
        rw [ih (r - a) hrest hr']
        rcases eq_or_lt_of_le hcq with hzero | hpos
        · rw [← hzero]
          simp only [add_zero, if_pos le_rfl]
          rw [greedyQuote_zero rest hrest]
          refine Prod.ext ?_ (Prod.ext ?_ ?_) <;> simp
        · have hcond : ¬ a + consumedBase rest (r - a) ≤ a := by linarith
          simp only [if_neg hcond]
          refine Prod.ext ?_ (Prod.ext ?_ ?_) <;> simp <;> ring

theorem consumedBase_le_self (ls : List (ℚ × ℚ)) (r : ℚ) (hr : 0 ≤ r) :
    consumedBase ls r ≤ r := by
  induction ls generalizing r with
  | nil => simpa [consumedBase] using hr
  | cons l rest ih =>
      obtain ⟨p, a⟩ := l
      simp only [consumedBase]
      by_cases hbr : r - min r a ≤ 1e-12
      · simp only [if_pos hbr]
        exact min_le_left _ _
      · simp only [if_neg hbr]
        have hr' : (0 : ℚ) ≤ r - min r a := by
          have : (0 : ℚ) < 1e-12 := by norm_num
          linarith [not_le.mp hbr]
        have := ih (r - min r a) hr'
        linarith

theorem consumedBase_le_depth (ls : List (ℚ × ℚ)) (r : ℚ) (hls : PosLevels ls) :
    consumedBase ls r ≤ baseDepth ls := by
  induction ls generalizing r with
  | nil => simp [consumedBase, baseDepth]
  | cons l rest ih =>
      obtain ⟨p, a⟩ := l
      have hrest : PosLevels rest := fun x hx => hls x (List.mem_cons_of_mem _ hx)
      simp only [consumedBase, baseDepth, List.map_cons, List.sum_cons]
      by_cases hbr : r - min r a ≤ 1e-12
      · simp only [if_pos hbr]
        have h1 : min r a ≤ a := min_le_right _ _
        have h2 : (0 : ℚ) ≤ baseDepth rest := baseDepth_nonneg rest hrest
        simp only [baseDepth] at h2
        linarith
      · obtain ⟨htake, hleft⟩ := take_eq_of_not_break12 hbr
        have hbr2 : ¬ r - a ≤ 1e-12 := not_le.mpr hleft
        simp only [if_neg hbr, htake, if_neg hbr2]
        have := ih (r - a) hrest
        simp only [baseDepth] at this
        linarith

theorem consumedBase_lower (ls : List (ℚ × ℚ)) (r : ℚ) (hls : PosLevels ls) (hr : 0 ≤ r) :
    r - consumedBase ls r ≤ 1e-12 ∨ consumedBase ls r = min r (baseDepth ls) := by
  induction ls generalizing r with
  | nil =>
      right
      simp [consumedBase, baseDepth, min_eq_right hr]
  | cons l rest ih =>
      obtain ⟨p, a⟩ := l
      obtain ⟨hp, ha⟩ := hls (p, a) (List.mem_cons_self _ _)
      have hrest : PosLevels rest := fun x hx => hls x (List.mem_cons_of_mem _ hx)
      simp only [consumedBase, baseDepth, List.map_cons, List.sum_cons]
      by_cases hbr : r - min r a ≤ 1e-12
      · left
        simp only [if_pos hbr]
        exact hbr
      · obtain ⟨htake, hleft⟩ := take_eq_of_not_break12 hbr
        have hr' : (0 : ℚ) ≤ r - a := by linarith
        have hbr2 : ¬ r - a ≤ 1e-12 := not_le.mpr hleft
        simp only [if_neg hbr, htake, if_neg hbr2]
        rcases ih (r - a) hrest hr' with hbreak | hexact
        · left
          linarith
        · right
          rw [hexact]
          simp only [baseDepth]
          rw [← min_add_add_left]
          congr 1
          ring

theorem consumedBase_pos (ls : List (ℚ × ℚ)) (r : ℚ) (hls : PosLevels ls)
    (hne : ls ≠ []) (hr : 0 < r) : 0 < consumedBase ls r := by
  cases ls with
  | nil => exact absurd rfl hne
  | cons l rest =>
      obtain ⟨p, a⟩ := l
      obtain ⟨hp, ha⟩ := hls (p, a) (List.mem_cons_self _ _)
      have hrest : PosLevels rest := fun x hx => hls x (List.mem_cons_of_mem _ hx)
      have htake : 0 < min r a := lt_min hr ha
      simp only [consumedBase]
      by_cases hbr : r - min r a ≤ 1e-12
      · simpa [hbr] using htake
      · simp only [if_neg hbr]
        have hcq : 0 ≤ consumedBase rest (r - min r a) := by
          apply consumedBase_nonneg _ _ hrest
          have : (0 : ℚ) < 1e-12 := by norm_num
          linarith [not_le.mp hbr]
        linarith

theorem greedyQuote_nonneg (ls : List (ℚ × ℚ)) (c : ℚ) (hls : PosLevels ls) (hc : 0 ≤ c) :
    0 ≤ greedyQuote ls c := by
  induction ls generalizing c with
  | nil => simp [greedyQuote]
  | cons l rest ih =>
      obtain ⟨p, a⟩ := l
      obtain ⟨hp, ha⟩ := hls (p, a) (List.mem_cons_self _ _)
      have hrest : PosLevels rest := fun x hx => hls x (List.mem_cons_of_mem _ hx)
      simp only [greedyQuote]
      by_cases hcL : c ≤ a
      · simp only [if_pos hcL]
        positivity
      · simp only [if_neg hcL]
        have := ih (c - a) hrest (by linarith [not_le.mp hcL])
        nlinarith

theorem greedyQuote_pos (ls : List (ℚ × ℚ)) (c : ℚ) (hls : PosLevels ls)
    (hne : ls ≠ []) (hc : 0 < c) : 0 < greedyQuote ls c := by
  cases ls with
  | nil => exact absurd rfl hne
  | cons l rest =>
      obtain ⟨p, a⟩ := l
      obtain ⟨hp, ha⟩ := hls (p, a) (List.mem_cons_self _ _)
      have hrest : PosLevels rest := fun x hx => hls x (List.mem_cons_of_mem _ hx)
      simp only [greedyQuote]
      by_cases hcL : c ≤ a
      · simp only [if_pos hcL]
        positivity
      · simp only [if_neg hcL]
        have h1 : 0 < a * p := mul_pos ha hp
        have h2 : 0 ≤ greedyQuote rest (c - a) :=
          greedyQuote_nonneg rest _ hrest (by linarith [not_le.mp hcL])
        linarith

/-! ### Packaging: `null`-characterisation and fill shape of the simulators -/

theorem vwapBuy_none_iff (book : OrderBook) (q : ℚ) (hq : 1e-6 < q) :
    vwapBuyForQuoteAmount book q = none ↔
      quoteDepth (validLevels book.asks) < q - 1e-6 := by
  set ls := validLevels book.asks with hls_def
  have hls : PosLevels ls := validLevels_pos book.asks
  have hq0 : (0 : ℚ) ≤ q := by linarith
  have hchar := buyWalk_eq_greedy ls q hls hq0
  simp only [vwapBuyForQuoteAmount, ← hls_def, hchar]
  set c := consumedQuote ls q with hc_def
  constructor
  · intro hnone
    by_contra hcon
    push_neg at hcon
    have hne : ls ≠ [] := by
      intro hnil
      rw [hnil] at hcon
      simp only [quoteDepth, List.map_nil, List.sum_nil] at hcon
      linarith
    have hcle : q - c ≤ 1e-6 := by
      rcases consumedQuote_lower ls q hls hq0 with hbreak | hexact
      · linarith
      · rw [hc_def, hexact]
        rcases min_cases q (quoteDepth ls) with ⟨h1, _⟩ | ⟨h1, _⟩ <;> rw [h1] <;> linarith
    have hcpos : 0 < c := consumedQuote_pos ls q hls hne (by linarith)
    have hbpos : 0 < greedyBase ls c := greedyBase_pos ls c hls hne hcpos
    rw [if_neg (not_or.mpr ⟨not_le.mpr hbpos, not_lt.mpr hcle⟩)] at hnone
    exact Option.some_ne_none _ hnone
  · intro hdeep
    have hcd : c ≤ quoteDepth ls := consumedQuote_le_depth ls q hls
    have hgt : 1e-6 < q - c := by linarith
    rw [if_pos (Or.inr hgt)]

theorem vwapBuy_some (book : OrderBook) (q : ℚ) (fill : FillResult) (hq : 0 ≤ q)
    (h : vwapBuyForQuoteAmount book q = some fill) :
    fill.baseAmount = greedyBase (validLevels book.asks) (consumedQuote (validLevels book.asks) q) ∧
    fill.executablePrice = consumedQuote (validLevels book.asks) q / fill.baseAmount ∧
    0 < fill.baseAmount ∧
    q - consumedQuote (validLevels book.asks) q ≤ 1e-6 ∧
    consumedQuote (validLevels book.asks) q ≤ q := by
  set ls := validLevels book.asks with hls_def
  have hls : PosLevels ls := validLevels_pos book.asks
  have hchar := buyWalk_eq_greedy ls q hls hq
  simp only [vwapBuyForQuoteAmount, ← hls_def, hchar] at h
  by_cases hcond : greedyBase ls (consumedQuote ls q) ≤ 0 ∨ 1e-6 < q - consumedQuote ls q
  · rw [if_pos hcond] at h
    exact absurd h (Option.noConfusion)
  · rw [if_neg hcond] at h
    push_neg at hcond
    obtain ⟨hbpos, hrem⟩ := hcond
    have hfill := Option.some.inj h
    refine ⟨?_, ?_, ?_, hrem, consumedQuote_le_self ls q hq⟩
    · rw [← hfill]
    · rw [← hfill]
    · rw [← hfill]
      exact hbpos

theorem vwapSell_none_iff (book : OrderBook) (b : ℚ) (hb : 1e-9 < b) :
    vwapSellForBaseAmount book b = none ↔
      baseDepth (validLevels book.bids) < b - 1e-9 := by
  set ls := validLevels book.bids with hls_def
  have hls : PosLevels ls := validLevels_pos book.bids
  have hb0 : (0 : ℚ) ≤ b := by linarith
  have hchar := sellWalk_eq_greedy ls b hls hb0
  simp only [vwapSellForBaseAmount, ← hls_def, hchar]
  set c := consumedBase ls b with hc_def
  constructor
  · intro hnone
    by_contra hcon
    push_neg at hcon
    have hne : ls ≠ [] := by
      intro hnil
      rw [hnil] at hcon
      simp only [baseDepth, List.map_nil, List.sum_nil] at hcon
      linarith
    have hcle : b - c ≤ 1e-9 := by
      rcases consumedBase_lower ls b hls hb0 with hbreak | hexact
      · linarith
      · rw [hc_def, hexact]
        rcases min_cases b (baseDepth ls) with ⟨h1, _⟩ | ⟨h1, _⟩ <;> rw [h1] <;> linarith
    have hcpos : 0 < c := consumedBase_pos ls b hls hne (by linarith)
    rw [if_neg (not_or.mpr ⟨not_le.mpr hcpos, not_lt.mpr hcle⟩)] at hnone
    exact Option.some_ne_none _ hnone
  · intro hdeep
    have hcd : c ≤ baseDepth ls := consumedBase_le_depth ls b hls
    have hgt : 1e-9 < b - c := by linarith
    rw [if_pos (Or.inr hgt)]

theorem vwapSell_some (book : OrderBook) (b : ℚ) (fill : FillResult) (hb : 0 ≤ b)
    (h : vwapSellForBaseAmount book b = some fill) :
    fill.baseAmount = consumedBase (validLevels book.bids) b ∧
    fill.executablePrice = greedyQuote (validLevels book.bids) fill.baseAmount / fill.baseAmount ∧
    0 < fill.baseAmount ∧
    b - fill.baseAmount ≤ 1e-9 ∧ fill.baseAmount ≤ b ∧
    (b ≤ baseDepth (validLevels book.bids) → b - fill.baseAmount ≤ 1e-12) := by
  set ls := validLevels book.bids with hls_def
  have hls : PosLevels ls := validLevels_pos book.bids
  have hchar := sellWalk_eq_greedy ls b hls hb
  simp only [vwapSellForBaseAmount, ← hls_def, hchar] at h
  by_cases hcond : consumedBase ls b ≤ 0 ∨ 1e-9 < b - consumedBase ls b
  · rw [if_pos hcond] at h
    exact absurd h (Option.noConfusion)
  · rw [if_neg hcond] at h
    push_neg at hcond
    obtain ⟨hcpos, hrem⟩ := hcond
    have hfill := Option.some.inj h
    have hle : consumedBase ls b ≤ b := consumedBase_le_self ls b hb
    refine ⟨?_, ?_, ?_, ?_, ?_, ?_⟩
    · rw [← hfill]
    · rw [← hfill]
    · rw [← hfill]
      exact hcpos
    · rw [← hfill]
      exact hrem
    · rw [← hfill]
      exact hle
    · intro hdeep
      rw [← hfill]
      rcases consumedBase_lower ls b hls hb with hbreak | hexact
      · simpa using hbreak
      · simp only [hexact, min_eq_left hdeep]
        norm_num

theorem greedyBase_nonpos (ls : List (ℚ × ℚ)) (c : ℚ) (hls : PosLevels ls) (hc : c ≤ 0) :
    greedyBase ls c ≤ 0 := by
  cases ls with
  | nil => simp [greedyBase]
  | cons l rest =>
      obtain ⟨p, a⟩ := l
      obtain ⟨hp, ha⟩ := hls (p, a) (List.mem_cons_self _ _)
      have hL : 0 < p * a := mul_pos hp ha
      simp only [greedyBase, if_pos (le_trans hc (le_of_lt hL))]
      exact div_nonpos_of_nonpos_of_nonneg hc (le_of_lt hp)

theorem vwapBuy_neg_none (book : OrderBook) (q : ℚ) (hq : q < 0) :
    vwapBuyForQuoteAmount book q = none := by
  have hls : PosLevels (validLevels book.asks) := validLevels_pos book.asks
  unfold vwapBuyForQuoteAmount
  cases hc : validLevels book.asks with
  | nil =>
      simp [hc, buyWalk]
  | cons l rest =>
      obtain ⟨p, a⟩ := l
      rw [hc] at hls
      obtain ⟨hp, ha⟩ := hls (p, a) (List.mem_cons_self _ _)
      have hL : 0 < p * a := mul_pos hp ha
      have hmin : min q (p * a) = q := min_eq_left (by linarith)
      have hwalk : buyWalk ((p, a) :: rest) q = (q / p, q, q - q) := by
        simp only [buyWalk, hmin]
        rw [if_pos (by norm_num : q - q ≤ (1e-9 : ℚ))]
      simp only [hc, hwalk]
      have hneg : q / p ≤ 0 := div_nonpos_of_nonpos_of_nonneg (le_of_lt hq) (le_of_lt hp)
      rw [if_pos (Or.inl hneg)]

theorem vwapSell_neg_none (book : OrderBook) (b : ℚ) (hb : b < 0) :
    vwapSellForBaseAmount book b = none := by
  have hls : PosLevels (validLevels book.bids) := validLevels_pos book.bids
  unfold vwapSellForBaseAmount
  cases hc : validLevels book.bids with
  | nil =>
      simp [hc, sellWalk]
  | cons l rest =>
      obtain ⟨p, a⟩ := l
      rw [hc] at hls
      obtain ⟨hp, ha⟩ := hls (p, a) (List.mem_cons_self _ _)
      have hmin : min b a = b := min_eq_left (by linarith)
      have hwalk : sellWalk ((p, a) :: rest) b = (b, b * p, b - b) := by
        simp only [sellWalk, hmin]
        rw [if_pos (by norm_num : b - b ≤ (1e-12 : ℚ))]
      simp only [hc, hwalk]
      rw [if_pos (Or.inl (le_of_lt hb))]

/-! ## Claim C4 (amended): depth sufficiency with dust tolerance, VWAP shape -/

/-- C4 (amended): the buy simulation walks the valid ask levels in sequence,
fails exactly when the valid ask depth falls short of the notional by more than
the `1e-6` dust tolerance, and on success returns the volume-weighted average
price `quoteSpent / baseBought` of the sequential greedy consumption; the sell
simulation sells the buy's base amount up to a dust remainder (at most `1e-9`,
and at most `1e-12` when bid depth suffices), failing exactly when valid bid
depth falls short of the base amount by more than `1e-9`. -/
theorem vwap_fill_simulation_characterised :
    (∀ (book : OrderBook) (q : ℚ), 1e-6 < q →
      (vwapBuyForQuoteAmount book q = none ↔
        quoteDepth (validLevels book.asks) < q - 1e-6) ∧
      (∀ fill, vwapBuyForQuoteAmount book q = some fill →
        fill.baseAmount =
          greedyBase (validLevels book.asks) (consumedQuote (validLevels book.asks) q) ∧
        fill.executablePrice = consumedQuote (validLevels book.asks) q / fill.baseAmount ∧
        q - 1e-6 ≤ consumedQuote (validLevels book.asks) q ∧
        consumedQuote (validLevels book.asks) q ≤ q)) ∧
    (∀ (book : OrderBook) (b : ℚ), 1e-9 < b →
      (vwapSellForBaseAmount book b = none ↔
        baseDepth (validLevels book.bids) < b - 1e-9) ∧
      (∀ fill, vwapSellForBaseAmount book b = some fill →
        fill.executablePrice =
          greedyQuote (validLevels book.bids) fill.baseAmount / fill.baseAmount ∧
        b - 1e-9 ≤ fill.baseAmount ∧ fill.baseAmount ≤ b ∧
        (b ≤ baseDepth (validLevels book.bids) → b - 1e-12 ≤ fill.baseAmount))) := by
  constructor
  · intro book q hq
    refine ⟨vwapBuy_none_iff book q hq, ?_⟩
    intro fill hfill
    obtain ⟨h1, h2, _, h4, h5⟩ := vwapBuy_some book q fill (by linarith) hfill
    exact ⟨h1, h2, by linarith, h5⟩
  · intro book b hb
    refine ⟨vwapSell_none_iff book b hb, ?_⟩
    intro fill hfill
    obtain ⟨_, h2, _, h4, h5, h6⟩ := vwapSell_some book b fill (by linarith) hfill
    exact ⟨h2, by linarith, h5, fun hd => by linarith [h6 hd]⟩

/-- Concrete book whose single ask level is `1e-7` quote short of the
100-unit notional. -/
def dustBook : OrderBook :=
  { bids := [], asks := [(JsNum.fin 1, JsNum.fin (999999999 / 10000000))] }

/-- C4 counterexample to the claim as stated: the total ask depth of
`dustBook` is insufficient to fill the 100-quote notional, yet the simulation
returns a fill rather than `null` (the shortfall `1e-7` is within the `1e-6`
dust tolerance). -/
theorem vwap_buy_insufficient_depth_fills_counterexample :
    quoteDepth (validLevels dustBook.asks) < 100 ∧
    vwapBuyForQuoteAmount dustBook 100 =
      some { executablePrice := 1, baseAmount := 999999999 / 10000000 } := by
  have hvl : validLevels dustBook.asks = [(1, 999999999 / 10000000)] := by
    simp [dustBook, validLevels, levelOk, List.filterMap_cons]
  constructor
  · rw [hvl]
    norm_num [quoteDepth]
  · rw [vwapBuyForQuoteAmount, hvl]
    norm_num [buyWalk]

/-- Witness for C4's amended theorem at a concrete book and notional. -/
theorem vwap_fill_simulation_characterised_witness :
    (1e-6 : ℚ) < 100 ∧
    (vwapBuyForQuoteAmount dustBook 100 = none ↔
      quoteDepth (validLevels dustBook.asks) < 100 - 1e-6) :=
  ⟨by norm_num, (vwap_fill_simulation_characterised.1 dustBook 100 (by norm_num)).1⟩

/-! ## Claim C8: buy slippage is monotone in the trade notional -/

/-- C8: on a fixed ask book, sorted ascending by price with all prices and
amounts strictly positive and finite, the buy slippage
`(executablePrice - bestAsk) / bestAsk * 100` is non-decreasing in the trade
notional, over all notionals the simulation fills. -/
theorem buy_slippage_monotone_in_notional
    (book : OrderBook) (p0 a0 : ℚ) (tl : List (ℚ × ℚ))
    (hbook : book.asks = rawLevels ((p0, a0) :: tl))
    (hpos : PosLevels ((p0, a0) :: tl)) (hsort : SortedAsks ((p0, a0) :: tl))
    (q1 q2 : ℚ) (f1 f2 : FillResult)
    (hq1 : 0 < q1) (h12 : q1 ≤ q2)
    (h1 : vwapBuyForQuoteAmount book q1 = some f1)
    (h2 : vwapBuyForQuoteAmount book q2 = some f2) :
    (f1.executablePrice - p0) / p0 * 100 ≤ (f2.executablePrice - p0) / p0 * 100 := by
  have hvalid : validLevels book.asks = (p0, a0) :: tl := by
    rw [hbook]
    exact validLevels_raw _ hpos
  set ls := (p0, a0) :: tl with hls_def
  have hp0 : 0 < p0 := (hpos (p0, a0) (List.mem_cons_self _ _)).1
  have hq2 : 0 < q2 := lt_of_lt_of_le hq1 h12
  obtain ⟨hb1, he1, hbp1, _, _⟩ := vwapBuy_some book q1 f1 (le_of_lt hq1) h1
  obtain ⟨hb2, he2, hbp2, _, _⟩ := vwapBuy_some book q2 f2 (le_of_lt hq2) h2
  rw [hvalid] at hb1 he1 hb2 he2
  set c1 := consumedQuote ls q1 with hc1_def
  set c2 := consumedQuote ls q2 with hc2_def
  have hc1pos : 0 < c1 := consumedQuote_pos ls q1 hpos (by simp [hls_def]) hq1
  have hcmono : c1 ≤ c2 := consumedQuote_mono ls q1 q2 hpos (le_of_lt hq1) h12
  have hB1 : 0 < greedyBase ls c1 := by
    rw [← hb1]
    exact hbp1
  have hB2 : 0 < greedyBase ls c2 := by
    rw [← hb2]
    exact hbp2
  have hratio := greedyBase_ratio_mono ls c1 c2 hpos hsort hc1pos hcmono
  have hexec : f1.executablePrice ≤ f2.executablePrice := by
    rw [he1, he2, hb1, hb2, div_le_div_iff hB1 hB2]
    nlinarith [hratio]
  have hfrac : (f1.executablePrice - p0) / p0 ≤ (f2.executablePrice - p0) / p0 :=
    div_le_div_of_nonneg_right (by linarith) (le_of_lt hp0)
  exact mul_le_mul_of_nonneg_right hfrac (by norm_num)

/-- Book used to instantiate the claim theorems about the fill simulators. -/
def flatBook : OrderBook :=
  { bids := [(JsNum.fin 1, JsNum.fin 200)], asks := [(JsNum.fin 1, JsNum.fin 200)] }

theorem flatBook_buy_50 :
    vwapBuyForQuoteAmount flatBook 50 = some { executablePrice := 1, baseAmount := 50 } := by
  have hvl : validLevels flatBook.asks = [(1, 200)] := by
    simp [flatBook, validLevels, levelOk, List.filterMap_cons]
  rw [vwapBuyForQuoteAmount, hvl]
  norm_num [buyWalk]

theorem flatBook_buy_100 :
    vwapBuyForQuoteAmount flatBook 100 = some { executablePrice := 1, baseAmount := 100 } := by
  have hvl : validLevels flatBook.asks = [(1, 200)] := by
    simp [flatBook, validLevels, levelOk, List.filterMap_cons]
  rw [vwapBuyForQuoteAmount, hvl]
  norm_num [buyWalk]

/-- Witness for C8's theorem at a concrete sorted book and two notionals. -/
theorem buy_slippage_monotone_in_notional_witness :
    (({ executablePrice := 1, baseAmount := 50 } : FillResult).executablePrice - 1) / 1 * 100 ≤
      (({ executablePrice := 1, baseAmount := 100 } : FillResult).executablePrice - 1) / 1 * 100 :=
  buy_slippage_monotone_in_notional flatBook 1 200 []
    (by simp [flatBook, rawLevels])
    (by intro l hl; simp at hl; simp [hl])
    (by simp [SortedAsks])
    50 100 _ _ (by norm_num) (by norm_num)
    flatBook_buy_50 flatBook_buy_100

/-! ## Claim C10: the fill simulators are total, skip junk levels, and only
produce strictly positive prices and amounts -/

/-- C10: both simulators depend only on the valid (finite, positive) levels of
the relevant book side — malformed levels are skipped — and whenever a fill is
returned its `executablePrice` and `baseAmount` are strictly positive (in
particular the divisions `quoteSpent / baseBought` and
`quoteReceived / baseSold` have strictly positive divisors). -/
theorem vwap_simulators_total_and_positive :
    (∀ (b1 b2 : OrderBook) (q : ℚ), validLevels b1.asks = validLevels b2.asks →
       vwapBuyForQuoteAmount b1 q = vwapBuyForQuoteAmount b2 q) ∧
    (∀ (b1 b2 : OrderBook) (amt : ℚ), validLevels b1.bids = validLevels b2.bids →
       vwapSellForBaseAmount b1 amt = vwapSellForBaseAmount b2 amt) ∧
    (∀ (book : OrderBook) (q : ℚ) (fill : FillResult),
       vwapBuyForQuoteAmount book q = some fill →
       0 < fill.executablePrice ∧ 0 < fill.baseAmount) ∧
    (∀ (book : OrderBook) (b : ℚ) (fill : FillResult),
       vwapSellForBaseAmount book b = some fill →
       0 < fill.executablePrice ∧ 0 < fill.baseAmount) := by
  refine ⟨?_, ?_, ?_, ?_⟩
  · intro b1 b2 q hvl
    unfold vwapBuyForQuoteAmount
    rw [hvl]
  · intro b1 b2 amt hvl
    unfold vwapSellForBaseAmount
    rw [hvl]
  · intro book q fill hfill
    have hls : PosLevels (validLevels book.asks) := validLevels_pos book.asks
    rcases lt_or_le q 0 with hq | hq
    · rw [vwapBuy_neg_none book q hq] at hfill
      exact absurd hfill (Option.noConfusion)
    · obtain ⟨hb, he, hbp, _, _⟩ := vwapBuy_some book q fill hq hfill
      refine ⟨?_, hbp⟩
      have hcpos : 0 < consumedQuote (validLevels book.asks) q := by
        by_contra hcon
        push_neg at hcon
        have hnp := greedyBase_nonpos (validLevels book.asks)
          (consumedQuote (validLevels book.asks) q) hls hcon
        rw [← hb] at hnp
        linarith [hbp]
      rw [he]
      exact div_pos hcpos hbp
  · intro book b fill hfill
    have hls : PosLevels (validLevels book.bids) := validLevels_pos book.bids
    rcases lt_or_le b 0 with hb | hb
    · rw [vwapSell_neg_none book b hb] at hfill
      exact absurd hfill (Option.noConfusion)
    · obtain ⟨hbase, he, hbp, _, _, _⟩ := vwapSell_some book b fill hb hfill
      refine ⟨?_, hbp⟩
      have hne : validLevels book.bids ≠ [] := by
        intro hnil
        rw [hbase, hnil] at hbp
        simp [consumedBase] at hbp
      have hq : 0 < greedyQuote (validLevels book.bids) fill.baseAmount :=
        greedyQuote_pos _ _ hls hne hbp
      rw [he]
      exact div_pos hq hbp

/-- Witness for C10 at a concrete book. -/
theorem vwap_simulators_total_and_positive_witness :
    0 < ({ executablePrice := 1, baseAmount := 50 } : FillResult).executablePrice ∧
    0 < ({ executablePrice := 1, baseAmount := 50 } : FillResult).baseAmount :=
  vwap_simulators_total_and_positive.2.2.1 flatBook 50 _ flatBook_buy_50

/-! ## Data model of the detection pipeline

Types from `src/types/exchange.ts`, with optional fields as `Option`. -/

/-- `ExchangeFees`. -/
structure ExchangeFees where
  takerFeePercent : ℚ
  transferFeePercent : Option ℚ := none
deriving DecidableEq, Repr

/-- `ExchangeConfig`, with the optional capability methods reduced to what the
validator observes: the presence of `getOrderBook` (checked before fetching).
The outcomes of the other calls live in the scan `World` below. -/
structure ExchangeConfig where
  name : String
  fees : ExchangeFees
  hasGetOrderBook : Bool
deriving DecidableEq, Repr

/-- `OpportunityLeg`. -/
structure OpportunityLeg where
  exchange : String
  price : ℚ
  effectivePrice : ℚ
  feePercentApplied : ℚ
deriving DecidableEq, Repr

/-- `Ticker24h`. -/
structure Ticker24h where
  last : Option ℚ := none
  quoteVolume24h : Option ℚ := none
deriving DecidableEq, Repr

/-- Network entry of `CurrencyInfo`. -/
structure CurrencyNetworkInfo where
  network : String
  depositEnabled : Option Bool := none
  withdrawEnabled : Option Bool := none
deriving DecidableEq, Repr

/-- `CurrencyInfo`. -/
structure CurrencyInfo where
  code : String
  networks : Option (List CurrencyNetworkInfo) := none
deriving DecidableEq, Repr

/-- `OpportunityValidation.status` values. -/
inductive VStatus where
  | validated
  | rejected
deriving DecidableEq, Repr

/-- `TransferValidation.status` values. -/
inductive TStatus where
  | ok
  | unknown
  | blocked
  | unavailable
deriving DecidableEq, Repr

/-- The string the code interpolates for a transfer status. -/
def TStatus.text : TStatus → String
  | .ok => "ok"
  | .unknown => "unknown"
  | .blocked => "blocked"
  | .unavailable => "unavailable"

/-- `TransferValidation`. -/
structure TransferValidation where
  status : TStatus
  network : Option String := none
  reason : Option String := none
deriving DecidableEq, Repr

/-- `OpportunityLegValidation`. -/
structure OpportunityLegValidation where
  bestPrice : Option ℚ := none
  executablePrice : Option ℚ := none
  slippagePercent : Option ℚ := none
  volume24hQuote : Option ℚ := none
deriving DecidableEq, Repr

/-- `OpportunityValidation`. -/
structure OpportunityValidation where
  status : VStatus
  reasons : Option (List String) := none
  buy : Option OpportunityLegValidation := none
  sell : Option OpportunityLegValidation := none
  transfer : Option TransferValidation := none
deriving DecidableEq, Repr

/-- `ArbitrageOpportunity`. -/
structure ArbitrageOpportunity where
  symbol : String
  min : ℚ
  max : ℚ
  diff : ℚ
  netDiff : ℚ
  buy : OpportunityLeg
  sell : OpportunityLeg
  exchanges : List (String × ℚ)
  tradeAmountUsd : Option ℚ := none
  realProfitUsd : Option ℚ := none
  validation : Option OpportunityValidation := none
deriving DecidableEq, Repr

/-! Configuration defaults from `src/services/arbitrageConfig.ts` and the
`MIN_DIFF_PERCENT` default of `arbitrageService.ts` (no environment overrides
in scope). -/

def MIN_24H_VOLUME : ℚ := 50000
def MAX_SLIPPAGE_PERCENT : ℚ := 8 / 10
def MIN_REAL_PROFIT_USD : ℚ := 5
def DEFAULT_TRADE_AMOUNT : ℚ := 100
def DEFAULT_MIN_DIFF_PERCENT : ℚ := 1 / 2

/-- `new Map(entries).get(k)`: for a duplicated key the JS `Map` constructor
keeps the last entry, hence the search over the reversed list. -/
def mapGet {α : Type} (l : List (String × α)) (k : String) : Option α :=
  (l.reverse.find? (fun e => e.1 == k)).map (fun e => e.2)

/-- `new Map(exchanges.map(e => [e.name, e])).get(name)`. -/
def lookupExchange (exs : List ExchangeConfig) (name : String) : Option ExchangeConfig :=
  mapGet (exs.map (fun e => (e.name, e))) name

/-! ## Spread Detector (`findArbitrage`, `buildLeg`) -/

/-- The two trade directions of `buildLeg`. -/
inductive Side where
  | buy
  | sell
deriving DecidableEq, Repr

/-- `buildLeg(fees, exchange, price, side)` (lines 119-135):
`totalFeePercent = (fees?.takerFeePercent ?? 0) + (fees?.transferFeePercent ?? 0)`,
multiplier `1 ± totalFeePercent/100`. -/
def buildLeg (fees : Option ExchangeFees) (exchange : String) (price : ℚ) (side : Side) :
    OpportunityLeg :=
  let totalFeePercent :=
    (match fees with | some f => f.takerFeePercent | none => 0) +
    (match fees with | some f => f.transferFeePercent.getD 0 | none => 0)
  let multiplier :=
    match side with
    | .buy => 1 + totalFeePercent / 100
    | .sell => 1 - totalFeePercent / 100
  { exchange := exchange, price := price,
    effectivePrice := price * multiplier, feePercentApplied := totalFeePercent }

/-- `buyLegs.reduce((best, next) => next.effectivePrice < best.effectivePrice ? next : best)`. -/
def reduceBestBuy : OpportunityLeg → List OpportunityLeg → OpportunityLeg
  | best, [] => best
  | best, next :: rest =>
      reduceBestBuy (if next.effectivePrice < best.effectivePrice then next else best) rest

/-- `sellLegs.reduce((best, next) => next.effectivePrice > best.effectivePrice ? next : best)`. -/
def reduceBestSell : OpportunityLeg → List OpportunityLeg → OpportunityLeg
  | best, [] => best
  | best, next :: rest =>
      reduceBestSell (if next.effectivePrice > best.effectivePrice then next else best) rest

/-- `Math.min` over a spread of raw prices. -/
def listMinQ : ℚ → List ℚ → ℚ
  | x, [] => x
  | x, y :: t => listMinQ (min x y) t

/-- `Math.max` over a spread of raw prices. -/
def listMaxQ : ℚ → List ℚ → ℚ
  | x, [] => x
  | x, y :: t => listMaxQ (max x y) t

/-- The fee-adjusted net spread between two legs, as computed at detection
time: `(sell.effectivePrice - buy.effectivePrice) / buy.effectivePrice * 100`. -/
def netDiffQ (buy sell : OpportunityLeg) : ℚ :=
  (sell.effectivePrice - buy.effectivePrice) / buy.effectivePrice * 100

/-- The per-symbol body of `findArbitrage` (lines 63-97): requires at least two
venue quotes, builds fee-adjusted buy/sell legs for every quoting venue,
selects the best legs by the two `reduce` passes, and discards the symbol when
the net spread is below the threshold. -/
def detectSymbol (exs : List ExchangeConfig) (minDiffPercent : ℚ) (symbol : String)
    (exchangePrices : List (String × ℚ)) : Option ArbitrageOpportunity :=
  match exchangePrices with
  | [] => none
  | [_] => none
  | e0 :: e1 :: rest =>
      let pmin := listMinQ e0.2 ((e1 :: rest).map (fun e => e.2))
      let pmax := listMaxQ e0.2 ((e1 :: rest).map (fun e => e.2))
      let grossDiff := (pmax - pmin) / pmin * 100
      let mkLeg := fun (side : Side) (e : String × ℚ) =>
        buildLeg ((lookupExchange exs e.1).map (fun x => x.fees)) e.1 e.2 side
      let bestBuy := reduceBestBuy (mkLeg .buy e0) ((e1 :: rest).map (mkLeg .buy))
      let bestSell := reduceBestSell (mkLeg .sell e0) ((e1 :: rest).map (mkLeg .sell))
      let netDiff := netDiffQ bestBuy bestSell
      if netDiff < minDiffPercent then none
      else some
        { symbol := symbol, min := pmin, max := pmax,
          diff := round2 grossDiff, netDiff := round2 netDiff,
          buy := bestBuy, sell := bestSell, exchanges := e0 :: e1 :: rest }

/-- `findArbitrage(prices, minDiffPercent)`: map over the price table and keep
the detected opportunities (`.map(...).filter(Boolean)`). -/
def findArbitrage (exs : List ExchangeConfig)
    (prices : List (String × List (String × ℚ))) (minDiffPercent : ℚ) :
    List ArbitrageOpportunity :=
  prices.filterMap (fun e => detectSymbol exs minDiffPercent e.1 e.2)

/-! ## Execution Validator (`validateOpportunities`, lines 137-347)

The asynchronous pre-fetch phase (24h tickers once per venue, currency
metadata once per venue, both best-effort with `catch`) is modelled by the
scan-scoped caches recorded in `World`: a missing `tickers` entry covers both
"venue has no `getTickers24h`" and "fetch failed" (the code stores `{}` then);
a `currencies` entry of `none` covers "fetch failed" (`null` is cached), a
missing entry covers "venue has no `getCurrencies`" — the two are
indistinguishable to `validateTransferabilityFromCache` (`!buyCurrencies`).
`books` records the outcome of `safeOrderBook` (absent symbol = `null`). -/

/-- The recorded outcomes of every venue call a scan makes. -/
structure World where
  exchanges : List ExchangeConfig
  prices : List (String × List (String × ℚ))
  tickers : List (String × List (String × Ticker24h))
  currencies : List (String × Option (List (String × CurrencyInfo)))
  books : List (String × List (String × OrderBook))
deriving Repr

/-- `tickersCache.get(name)?.[symbol]?.quoteVolume24h`. -/
def tickerVolume (w : World) (exchangeName symbol : String) : Option ℚ :=
  ((mapGet w.tickers exchangeName).bind (fun m => mapGet m symbol)).bind
    (fun t => t.quoteVolume24h)

/-- `currenciesCache.get(name)`: `none` for both a missing entry (capability
absent) and a cached `null` (fetch failed). -/
def currenciesFor (w : World) (exchangeName : String) :
    Option (List (String × CurrencyInfo)) :=
  (mapGet w.currencies exchangeName).bind (fun x => x)

/-- `safeOrderBook` outcome: the recorded book, or `null`. -/
def bookFor (w : World) (exchangeName symbol : String) : Option OrderBook :=
  (mapGet w.books exchangeName).bind (fun m => mapGet m symbol)

/-- `book.asks[0]?.[0]` guarded by `!== undefined && Number.isFinite`. -/
def headPrice (levels : List (JsNum × JsNum)) : Option ℚ :=
  match levels with
  | [] => none
  | (p, _) :: _ => p.finite?

/-- `baseFromSymbolUsdt` (lines 430-433). -/
def baseFromSymbolUsdt (symbol : String) : String :=
  if symbol.endsWith "USDT" then symbol.dropRight 4 else symbol

/-- `validateTransferabilityFromCache` (lines 473-512).  The two `Map`s keyed
by upper-cased network name are searched through `buyWithdraw.keys()`; a JS
`Map` keeps first-insertion order for duplicated keys and `has` is plain key
membership, so searching the undeduplicated upper-cased key list in order is
equivalent. -/
def validateTransferabilityFromCache
    (buyCurrencies sellCurrencies : Option (List (String × CurrencyInfo)))
    (buyEx sellEx : ExchangeConfig) (currency : String) : TransferValidation :=
  match buyCurrencies, sellCurrencies with
  | some bt, some st =>
      let buyInfo := mapGet bt currency.toUpper
      let sellInfo := mapGet st currency.toUpper
      let buyNets := (buyInfo.bind (fun i => i.networks)).getD []
      let sellNets := (sellInfo.bind (fun i => i.networks)).getD []
      if buyNets.isEmpty ∨ sellNets.isEmpty then
        { status := .unknown, reason := some "currency networks missing" }
      else
        let buyWithdraw :=
          (buyNets.filter (fun n => n.withdrawEnabled.getD false)).map
            (fun n => n.network.toUpper)
        let sellDeposit :=
          (sellNets.filter (fun n => n.depositEnabled.getD false)).map
            (fun n => n.network.toUpper)
        match buyWithdraw.find? (fun net => sellDeposit.contains net) with
        | some net => { status := .ok, network := some net }
        | none =>
            { status := .blocked,
              reason := some "no common network with withdraw+deposit enabled" }
  | _, _ =>
      { status := .unavailable,
        reason := some ("fetchCurrencies not available (public API) on " ++
          (if buyCurrencies.isNone then buyEx.name else sellEx.name)) }

/-- `buildLegValidation` (lines 389-401): drop the record when every field is
absent. -/
def buildLegValidation (bestPrice executablePrice slippagePercent volume24hQuote : Option ℚ) :
    Option OpportunityLegValidation :=
  if bestPrice.isNone && executablePrice.isNone && slippagePercent.isNone &&
      volume24hQuote.isNone then none
  else some
    { bestPrice := bestPrice, executablePrice := executablePrice,
      slippagePercent := slippagePercent, volume24hQuote := volume24hQuote }

/-- `attachValidation` (lines 349-370): set `tradeAmountUsd`, build a
`rejected`/`validated` record from the partial leg snapshots
`(bestPrice, executablePrice, slippagePercent)` via `buildLegValidationOptional`. -/
def attachValidation (opp : ArbitrageOpportunity) (status : VStatus) (reasons : List String)
    (buyVol sellVol : Option ℚ) (buySnap sellSnap : Option (ℚ × ℚ × ℚ))
    (transfer : Option TransferValidation) : ArbitrageOpportunity :=
  { opp with
    tradeAmountUsd := some DEFAULT_TRADE_AMOUNT,
    validation := some
      { status := status, reasons := some reasons,
        buy := buildLegValidation (buySnap.map (fun s => s.1)) (buySnap.map (fun s => s.2.1))
          (buySnap.map (fun s => s.2.2)) buyVol,
        sell := buildLegValidation (sellSnap.map (fun s => s.1)) (sellSnap.map (fun s => s.2.1))
          (sellSnap.map (fun s => s.2.2)) sellVol,
        transfer := transfer } }

/-- The reason strings pushed by the 24h-volume check, in push order. -/
def volumeReasons (buyVol sellVol : Option ℚ) (buyName sellName : String) : List String :=
  (match buyVol with
   | none => ["buy volume_24h unknown on " ++ buyName]
   | some _ => []) ++
  (match sellVol with
   | none => ["sell volume_24h unknown on " ++ sellName]
   | some _ => []) ++
  (match buyVol with
   | some v => if v < MIN_24H_VOLUME then
       ["buy volume_24h < MIN_24H_VOLUME (" ++ toString v ++ ")"] else []
   | none => []) ++
  (match sellVol with
   | some v => if v < MIN_24H_VOLUME then
       ["sell volume_24h < MIN_24H_VOLUME (" ++ toString v ++ ")"] else []
   | none => [])

/-- The reason strings pushed by the order-book capability pre-check. -/
def bookCapabilityReasons (buyEx sellEx : ExchangeConfig) : List String :=
  (if buyEx.hasGetOrderBook then [] else ["order book unsupported on " ++ buyEx.name]) ++
  (if sellEx.hasGetOrderBook then [] else ["order book unsupported on " ++ sellEx.name])

/-- The body of `validateOpportunities`'s per-candidate closure
(lines 185-343), with the pre-fetched caches supplied by the `World`.
Returns `none` for the `if (!buyEx || !sellEx) return null` case. -/
def validateOne (w : World) (opp : ArbitrageOpportunity) : Option ArbitrageOpportunity :=
  match lookupExchange w.exchanges opp.buy.exchange,
        lookupExchange w.exchanges opp.sell.exchange with
  | none, _ => none
  | some _, none => none
  | some buyEx, some sellEx =>
    let buyVol := tickerVolume w buyEx.name opp.symbol
    let sellVol := tickerVolume w sellEx.name opp.symbol
    let reasons := volumeReasons buyVol sellVol buyEx.name sellEx.name ++
      bookCapabilityReasons buyEx sellEx
    if ¬ reasons.isEmpty then
      some (attachValidation opp .rejected reasons buyVol sellVol none none none)
    else
      match bookFor w buyEx.name opp.symbol with
      | none => some (attachValidation opp .rejected
          ["buy order book unavailable on " ++ buyEx.name] buyVol sellVol none none none)
      | some buyBook =>
        match bookFor w sellEx.name opp.symbol with
        | none => some (attachValidation opp .rejected
            ["sell order book unavailable on " ++ sellEx.name] buyVol sellVol none none none)
        | some sellBook =>
          match headPrice buyBook.asks with
          | none => some (attachValidation opp .rejected
              ["best ask missing on " ++ buyEx.name] buyVol sellVol none none none)
          | some bestAskPrice =>
            match headPrice sellBook.bids with
            | none => some (attachValidation opp .rejected
                ["best bid missing on " ++ sellEx.name] buyVol sellVol none none none)
            | some bestBidPrice =>
              match vwapBuyForQuoteAmount buyBook DEFAULT_TRADE_AMOUNT with
              | none => some (attachValidation opp .rejected
                  ["insufficient buy-side depth for " ++ toString DEFAULT_TRADE_AMOUNT ++
                    " quote on " ++ buyEx.name] buyVol sellVol none none none)
              | some buyFill =>
                match vwapSellForBaseAmount sellBook buyFill.baseAmount with
                | none => some (attachValidation opp .rejected
                    ["insufficient sell-side depth for base amount on " ++ sellEx.name]
                    buyVol sellVol none none none)
                | some sellFill =>
                  let buySlippage := (buyFill.executablePrice - bestAskPrice) / bestAskPrice * 100
                  let sellSlippage := (bestBidPrice - sellFill.executablePrice) / bestBidPrice * 100
                  let slipReasons :=
                    (if buySlippage > MAX_SLIPPAGE_PERCENT then
                      ["buy slippage > MAX_SLIPPAGE_PERCENT (" ++ toString buySlippage ++ ")"]
                     else []) ++
                    (if sellSlippage > MAX_SLIPPAGE_PERCENT then
                      ["sell slippage > MAX_SLIPPAGE_PERCENT (" ++ toString sellSlippage ++ ")"]
                     else [])
                  if ¬ slipReasons.isEmpty then
                    some (attachValidation opp .rejected slipReasons buyVol sellVol
                      (some (bestAskPrice, buyFill.executablePrice, buySlippage))
                      (some (bestBidPrice, sellFill.executablePrice, sellSlippage)) none)
                  else
                    let transfer := validateTransferabilityFromCache
                      (currenciesFor w buyEx.name) (currenciesFor w sellEx.name)
                      buyEx sellEx (baseFromSymbolUsdt opp.symbol)
                    if transfer.status = .unknown ∨ transfer.status = .blocked then
                      some (attachValidation opp .rejected
                        ["transfer check " ++ transfer.status.text ++
                          (match transfer.reason with
                           | some r => ": " ++ r
                           | none => "")]
                        buyVol sellVol
                        (some (bestAskPrice, buyFill.executablePrice, buySlippage))
                        (some (bestBidPrice, sellFill.executablePrice, sellSlippage))
                        (some transfer))
                    else
                      let costWithFees := DEFAULT_TRADE_AMOUNT * (1 + opp.buy.feePercentApplied / 100)
                      let proceedsBeforeFees := sellFill.baseAmount * sellFill.executablePrice
                      let proceedsWithFees := proceedsBeforeFees * (1 - opp.sell.feePercentApplied / 100)
                      let realProfitUsd := proceedsWithFees - costWithFees
                      if realProfitUsd < MIN_REAL_PROFIT_USD then
                        some (attachValidation
                          { opp with
                            tradeAmountUsd := some DEFAULT_TRADE_AMOUNT,
                            realProfitUsd := some realProfitUsd }
                          .rejected
                          ["realProfitUsd < MIN_REAL_PROFIT_USD (" ++ toString realProfitUsd ++ ")"]
                          buyVol sellVol
                          (some (bestAskPrice, buyFill.executablePrice, buySlippage))
                          (some (bestBidPrice, sellFill.executablePrice, sellSlippage))
                          (some transfer))
                      else
                        some { opp with
                          netDiff := round2 (realProfitUsd / costWithFees * 100),
                          tradeAmountUsd := some DEFAULT_TRADE_AMOUNT,
                          realProfitUsd := some (round2 realProfitUsd),
                          validation := some
                            { status := .validated,
                              buy := some
                                { bestPrice := some bestAskPrice,
                                  executablePrice := some buyFill.executablePrice,
                                  slippagePercent := some buySlippage,
                                  volume24hQuote := buyVol },
                              sell := some
                                { bestPrice := some bestBidPrice,
                                  executablePrice := some sellFill.executablePrice,
                                  slippagePercent := some sellSlippage,
                                  volume24hQuote := sellVol },
                              transfer := some transfer } }

/-- `validateOpportunities`: validate every candidate, drop the `null`s, keep
only `validation.status === 'validated'`. -/
def validateOpportunities (w : World) (opportunities : List ArbitrageOpportunity) :
    List ArbitrageOpportunity :=
  (opportunities.filterMap (validateOne w)).filter
    (fun o => match o.validation with
      | some v => v.status = VStatus.validated
      | none => false)

/-- `getArbitrageOpportunities(minDiffPercent?)` (lines 101-111): default the
threshold (a `NaN` or absent argument falls back to
`DEFAULT_MIN_DIFF_PERCENT`), detect, then validate.  The venue responses of the
collection phase are supplied by the `World`. -/
def getArbitrageOpportunities (w : World) (minDiffPercent : Option ℚ) :
    List ArbitrageOpportunity :=
  let threshold := minDiffPercent.getD DEFAULT_MIN_DIFF_PERCENT
  validateOpportunities w (findArbitrage w.exchanges w.prices threshold)

/-! ## Selection lemmas for the two detection `reduce` passes -/

/-- The buy-side `reduce` returns the **first** leg attaining the minimal
effective price: it occurs in the list, is `≤` every leg, and is `<` every leg
strictly before it. -/
theorem reduceBestBuy_spec (t : List OpportunityLeg) (b : OpportunityLeg) :
    ∃ i : ℕ, (b :: t)[i]? = some (reduceBestBuy b t) ∧
      (∀ l ∈ b :: t, (reduceBestBuy b t).effectivePrice ≤ l.effectivePrice) ∧
      (∀ j, j < i → ∀ l, (b :: t)[j]? = some l →
        (reduceBestBuy b t).effectivePrice < l.effectivePrice) := by
  induction t generalizing b with
  | nil =>
      refine ⟨0, by simp [reduceBestBuy], ?_, ?_⟩
      · intro l hl
        simp at hl
        simp [hl, reduceBestBuy]
      · intro j hj
        omega
  | cons n t' ih =>
      by_cases hlt : n.effectivePrice < b.effectivePrice
      · have hred : reduceBestBuy b (n :: t') = reduceBestBuy n t' := by
          simp [reduceBestBuy, hlt]
        obtain ⟨i', hget, hmin, hpre⟩ := ih n
        refine ⟨i' + 1, ?_, ?_, ?_⟩
        · rw [hred]
          simpa using hget
        · intro l hl
          rw [hred]
          rcases List.mem_cons.mp hl with h | h
          · have := hmin n (List.mem_cons_self _ _)
            rw [h]
            linarith
          · exact hmin l h
        · intro j hj l hget'
          rw [hred]
          cases j with
          | zero =>
              simp at hget'
              have := hmin n (List.mem_cons_self _ _)
              rw [← hget']
              linarith
          | succ j'' =>
              simp at hget'
              exact hpre j'' (by omega) l hget'
      · have hred : reduceBestBuy b (n :: t') = reduceBestBuy b t' := by
          simp [reduceBestBuy, hlt]
        have hble : b.effectivePrice ≤ n.effectivePrice := not_lt.mp hlt
        obtain ⟨i', hget, hmin, hpre⟩ := ih b
        cases i' with
        | zero =>
            simp at hget
            refine ⟨0, ?_, ?_, ?_⟩
            · rw [hred]
              simp [← hget]
            · intro l hl
              rw [hred]
              rcases List.mem_cons.mp hl with h | h
              · rw [h, ← hget]
              · rcases List.mem_cons.mp h with h2 | h2
                · rw [h2, ← hget]
                  exact hble
                · exact hmin l (List.mem_cons_of_mem _ h2)
            · intro j hj
              omega
        | succ k =>
            simp at hget
            refine ⟨k + 2, ?_, ?_, ?_⟩
            · rw [hred]
              simpa using hget
            · intro l hl
              rw [hred]
              rcases List.mem_cons.mp hl with h | h
              · rw [h]
                exact hmin b (List.mem_cons_self _ _)
              · rcases List.mem_cons.mp h with h2 | h2
                · rw [h2]
                  exact le_trans (hmin b (List.mem_cons_self _ _)) hble
                · exact hmin l (List.mem_cons_of_mem _ h2)
            · intro j hj l hget'
              rw [hred]
              match j with
              | 0 =>
                  simp at hget'
                  rw [← hget']
                  exact hpre 0 (by omega) b (by simp)
              | 1 =>
                  simp at hget'
                  rw [← hget']
                  exact lt_of_lt_of_le (hpre 0 (by omega) b (by simp)) hble
              | (j'' + 2) =>
                  simp at hget'
                  exact hpre (j'' + 1) (by omega) l (by simpa using hget')

/-- The sell-side `reduce` returns the **first** leg attaining the maximal
effective price. -/
theorem reduceBestSell_spec (t : List OpportunityLeg) (b : OpportunityLeg) :
    ∃ i : ℕ, (b :: t)[i]? = some (reduceBestSell b t) ∧
      (∀ l ∈ b :: t, l.effectivePrice ≤ (reduceBestSell b t).effectivePrice) ∧
      (∀ j, j < i → ∀ l, (b :: t)[j]? = some l →
        l.effectivePrice < (reduceBestSell b t).effectivePrice) := by
  induction t generalizing b with
  | nil =>
      refine ⟨0, by simp [reduceBestSell], ?_, ?_⟩
      · intro l hl
        simp at hl
        simp [hl, reduceBestSell]
      · intro j hj
        omega
  | cons n t' ih =>
      by_cases hlt : n.effectivePrice > b.effectivePrice
      · have hred : reduceBestSell b (n :: t') = reduceBestSell n t' := by
          simp [reduceBestSell, hlt]
        obtain ⟨i', hget, hmin, hpre⟩ := ih n
        refine ⟨i' + 1, ?_, ?_, ?_⟩
        · rw [hred]
          simpa using hget
        · intro l hl
          rw [hred]
          rcases List.mem_cons.mp hl with h | h
          · have := hmin n (List.mem_cons_self _ _)
            rw [h]
            linarith
          · exact hmin l h
        · intro j hj l hget'
          rw [hred]
          cases j with
          | zero =>
              simp at hget'
              have := hmin n (List.mem_cons_self _ _)
              rw [← hget']
              linarith
          | succ j'' =>
              simp at hget'
              exact hpre j'' (by omega) l hget'
      · have hred : reduceBestSell b (n :: t') = reduceBestSell b t' := by
          simp [reduceBestSell, hlt]
        have hble : n.effectivePrice ≤ b.effectivePrice := not_lt.mp hlt
        obtain ⟨i', hget, hmin, hpre⟩ := ih b
        cases i' with
        | zero =>
            simp at hget
            refine ⟨0, ?_, ?_, ?_⟩
            · rw [hred]
              simp [← hget]
            · intro l hl
              rw [hred]
              rcases List.mem_cons.mp hl with h | h
              · rw [h, ← hget]
              · rcases List.mem_cons.mp h with h2 | h2
                · rw [h2, ← hget]
                  exact hble
                · exact hmin l (List.mem_cons_of_mem _ h2)
            · intro j hj
              omega
        | succ k =>
            simp at hget
            refine ⟨k + 2, ?_, ?_, ?_⟩
            · rw [hred]
              simpa using hget
            · intro l hl
              rw [hred]
              rcases List.mem_cons.mp hl with h | h
              · rw [h]
                exact hmin b (List.mem_cons_self _ _)
              · rcases List.mem_cons.mp h with h2 | h2
                · rw [h2]
                  exact le_trans hble (hmin b (List.mem_cons_self _ _))
                · exact hmin l (List.mem_cons_of_mem _ h2)
            · intro j hj l hget'
              rw [hred]
              match j with
              | 0 =>
                  simp at hget'
                  rw [← hget']
                  exact hpre 0 (by omega) b (by simp)
              | 1 =>
                  simp at hget'
                  rw [← hget']
                  exact lt_of_le_of_lt hble (hpre 0 (by omega) b (by simp))
              | (j'' + 2) =>
                  simp at hget'
                  exact hpre (j'' + 1) (by omega) l (by simpa using hget')

/-! ## Claim C3: leg construction and best-leg selection -/

/-- The per-venue legs the detector builds for one symbol. -/
def detectionLegs (exs : List ExchangeConfig) (side : Side)
    (eps : List (String × ℚ)) : List OpportunityLeg :=
  eps.map (fun e => buildLeg ((lookupExchange exs e.1).map (fun x => x.fees)) e.1 e.2 side)

/-- C3: for every emitted opportunity the detector built, for each quoting
venue, a buy leg `price * (1 + (taker + transfer)/100)` and a sell leg
`price * (1 - (taker + transfer)/100)` from that venue's fees, selected the
buy leg with the lowest and the sell leg with the highest effective price with
ties won by the first-encountered leg (strict comparisons), and computed
`netDiff = (sell.effectivePrice - buy.effectivePrice) / buy.effectivePrice * 100`
(compared against the threshold exactly; the stored field is its two-decimal
rounding). -/
theorem detection_leg_selection :
    (∀ (fees : ExchangeFees) (exch : String) (price : ℚ),
      (buildLeg (some fees) exch price .buy).effectivePrice =
        price * (1 + (fees.takerFeePercent + fees.transferFeePercent.getD 0) / 100) ∧
      (buildLeg (some fees) exch price .sell).effectivePrice =
        price * (1 - (fees.takerFeePercent + fees.transferFeePercent.getD 0) / 100) ∧
      (buildLeg (some fees) exch price .buy).feePercentApplied =
        fees.takerFeePercent + fees.transferFeePercent.getD 0) ∧
    (∀ (exs : List ExchangeConfig) (minDiffPercent : ℚ)
       (prices : List (String × List (String × ℚ))) (o : ArbitrageOpportunity),
      o ∈ findArbitrage exs prices minDiffPercent →
      ∃ eps, (o.symbol, eps) ∈ prices ∧ 2 ≤ eps.length ∧
        (∃ i : ℕ, (detectionLegs exs .buy eps)[i]? = some o.buy ∧
          (∀ j, j < i → ∀ l, (detectionLegs exs .buy eps)[j]? = some l →
            o.buy.effectivePrice < l.effectivePrice)) ∧
        (∀ l ∈ detectionLegs exs .buy eps, o.buy.effectivePrice ≤ l.effectivePrice) ∧
        (∃ i : ℕ, (detectionLegs exs .sell eps)[i]? = some o.sell ∧
          (∀ j, j < i → ∀ l, (detectionLegs exs .sell eps)[j]? = some l →
            l.effectivePrice < o.sell.effectivePrice)) ∧
        (∀ l ∈ detectionLegs exs .sell eps, l.effectivePrice ≤ o.sell.effectivePrice) ∧
        minDiffPercent ≤ netDiffQ o.buy o.sell ∧
        o.netDiff = round2 (netDiffQ o.buy o.sell)) := by
  constructor
  · intro fees exch price
    refine ⟨?_, ?_, ?_⟩ <;> simp [buildLeg]
  · intro exs minDiffPercent prices o ho
    obtain ⟨⟨sym, eps⟩, hmem, heq⟩ := List.mem_filterMap.mp ho
    match eps with
    | [] => simp [detectSymbol] at heq
    | [e] => simp [detectSymbol] at heq
    | e0 :: e1 :: rest =>
      simp only [detectSymbol] at heq
      set mkLeg := fun (side : Side) (e : String × ℚ) =>
        buildLeg ((lookupExchange exs e.1).map (fun x => x.fees)) e.1 e.2 side with hmk
      set bestBuy := reduceBestBuy (mkLeg .buy e0) ((e1 :: rest).map (mkLeg .buy)) with hbb
      set bestSell := reduceBestSell (mkLeg .sell e0) ((e1 :: rest).map (mkLeg .sell)) with hbs
      by_cases hthr : netDiffQ bestBuy bestSell < minDiffPercent
      · rw [if_pos hthr] at heq
        exact absurd heq (Option.noConfusion)
      · rw [if_neg hthr] at heq
        have ho' := Option.some.inj heq
        have hosym : o.symbol = sym := by rw [← ho']
        have hbuy : o.buy = bestBuy := by rw [← ho']
        have hsell : o.sell = bestSell := by rw [← ho']
        have hlegs_buy : detectionLegs exs .buy (e0 :: e1 :: rest) =
            mkLeg .buy e0 :: (e1 :: rest).map (mkLeg .buy) := by
          simp [detectionLegs, hmk]
        have hlegs_sell : detectionLegs exs .sell (e0 :: e1 :: rest) =
            mkLeg .sell e0 :: (e1 :: rest).map (mkLeg .sell) := by
          simp [detectionLegs, hmk]
        refine ⟨e0 :: e1 :: rest, ?_, by simp, ?_, ?_, ?_, ?_, ?_, ?_⟩
        · rw [hosym]
          exact hmem
        · obtain ⟨i, hget, _, hpre⟩ :=
            reduceBestBuy_spec ((e1 :: rest).map (mkLeg .buy)) (mkLeg .buy e0)
          refine ⟨i, ?_, ?_⟩
          · rw [hlegs_buy, hbuy]
            exact hget
          · intro j hj l hget'
            rw [hlegs_buy] at hget'
            rw [hbuy]
            exact hpre j hj l hget'
        · obtain ⟨_, _, hmin, _⟩ :=
            reduceBestBuy_spec ((e1 :: rest).map (mkLeg .buy)) (mkLeg .buy e0)
          intro l hl
          rw [hlegs_buy] at hl
          rw [hbuy]
          exact hmin l hl
        · obtain ⟨i, hget, _, hpre⟩ :=
            reduceBestSell_spec ((e1 :: rest).map (mkLeg .sell)) (mkLeg .sell e0)
          refine ⟨i, ?_, ?_⟩
          · rw [hlegs_sell, hsell]
            exact hget
          · intro j hj l hget'
            rw [hlegs_sell] at hget'
            rw [hsell]
            exact hpre j hj l hget'
        · obtain ⟨_, _, hmin, _⟩ :=
            reduceBestSell_spec ((e1 :: rest).map (mkLeg .sell)) (mkLeg .sell e0)
          intro l hl
          rw [hlegs_sell] at hl
          rw [hsell]
          exact hmin l hl
        · rw [hbuy, hsell]
          exact not_lt.mp hthr
        · rw [hbuy, hsell, ← ho']

/-! ## Branch analysis of the validator -/

/-- `o.validation?.status`. -/
def validationStatus (o : ArbitrageOpportunity) : Option VStatus :=
  o.validation.map (fun v => v.status)

/-- The reasons attached to `o`, `[]` when absent. -/
def validationReasons (o : ArbitrageOpportunity) : List String :=
  (o.validation.bind (fun v => v.reasons)).getD []

/-- `o.validation?.transfer`. -/
def transferOf (o : ArbitrageOpportunity) : Option TransferValidation :=
  o.validation.bind (fun v => v.transfer)

theorem attachValidation_status (opp status reasons buyVol sellVol buySnap sellSnap transfer) :
    validationStatus (attachValidation opp status reasons buyVol sellVol buySnap sellSnap
      transfer) = some status := by
  simp [attachValidation, validationStatus]

/-- A candidate that `validateOne` marks `validated` went through the
real-profit branch: its legs are the candidate's detection legs and its stored
`realProfitUsd` is the two-decimal rounding of an amount at least
`MIN_REAL_PROFIT_USD`. -/
theorem validateOne_validated (w : World) (opp o : ArbitrageOpportunity)
    (h : validateOne w opp = some o) (hval : validationStatus o = some VStatus.validated) :
    o.buy = opp.buy ∧ o.sell = opp.sell ∧
    ∃ rp, MIN_REAL_PROFIT_USD ≤ rp ∧ o.realProfitUsd = some (round2 rp) := by
  simp only [validateOne] at h
  repeat' split at h
  all_goals try exact absurd h (Option.noConfusion)
  all_goals try (rw [← Option.some.inj h, attachValidation_status] at hval; exact absurd (Option.some.inj hval) (by simp))
  all_goals try (exfalso; simp_all; done)
  all_goals injection h with hinj
  all_goals rename_i hprofit
  all_goals exact ⟨by rw [← hinj], by rw [← hinj], _, not_lt.mp hprofit, by rw [← hinj]⟩

/-- Candidates emitted by the detector meet the threshold at detection time. -/
theorem findArbitrage_netDiff (exs : List ExchangeConfig)
    (prices : List (String × List (String × ℚ))) (minDiffPercent : ℚ)
    (o : ArbitrageOpportunity) (ho : o ∈ findArbitrage exs prices minDiffPercent) :
    minDiffPercent ≤ netDiffQ o.buy o.sell := by
  obtain ⟨⟨sym, eps⟩, _, heq⟩ := List.mem_filterMap.mp ho
  match eps with
  | [] => simp [detectSymbol] at heq
  | [e] => simp [detectSymbol] at heq
  | e0 :: e1 :: rest =>
    simp only [detectSymbol] at heq
    split at heq
    · exact absurd heq (Option.noConfusion)
    next hthr =>
      have ho' := Option.some.inj heq
      rw [← ho']
      exact not_lt.mp hthr

/-! ## Claim C2: every emitted opportunity meets both thresholds -/

/-- C2: every opportunity in the final output of the top-level scan has a
detection-time net diff (recomputed from its preserved legs as
`(sell.effectivePrice - buy.effectivePrice) / buy.effectivePrice * 100`) at
least the threshold in effect, and a stored `realProfitUsd` of at least
`MIN_REAL_PROFIT_USD = 5`. -/
theorem scan_output_meets_thresholds (w : World) (minDiffPercent : Option ℚ)
    (o : ArbitrageOpportunity) (ho : o ∈ getArbitrageOpportunities w minDiffPercent) :
    minDiffPercent.getD DEFAULT_MIN_DIFF_PERCENT ≤ netDiffQ o.buy o.sell ∧
    ∃ r, o.realProfitUsd = some r ∧ MIN_REAL_PROFIT_USD ≤ r := by
  unfold getArbitrageOpportunities validateOpportunities at ho
  obtain ⟨ho1, hpred⟩ := List.mem_filter.mp ho
  obtain ⟨c, hc, hvone⟩ := List.mem_filterMap.mp ho1
  have hval : validationStatus o = some VStatus.validated := by
    unfold validationStatus
    rcases hv : o.validation with _ | v
    · rw [hv] at hpred
      simp at hpred
    · rw [hv] at hpred
      simp only [decide_eq_true_eq] at hpred
      simp [hpred]
  obtain ⟨hbuy, hsell, rp, hrp, hstore⟩ := validateOne_validated w c o hvone hval
  constructor
  · rw [hbuy, hsell]
    exact findArbitrage_netDiff _ _ _ _ hc
  · refine ⟨round2 rp, hstore, ?_⟩
    have h5 : round2 MIN_REAL_PROFIT_USD = MIN_REAL_PROFIT_USD := by
      norm_num [round2, MIN_REAL_PROFIT_USD]
    calc MIN_REAL_PROFIT_USD = round2 MIN_REAL_PROFIT_USD := h5.symm
      _ ≤ round2 rp := round2_mono hrp

/-- A missing currency table on either side yields status `unavailable`. -/
theorem transfer_unavailable_of_missing
    (bc sc : Option (List (String × CurrencyInfo))) (buyEx sellEx : ExchangeConfig)
    (cur : String) (h : bc = none ∨ sc = none) :
    (validateTransferabilityFromCache bc sc buyEx sellEx cur).status = TStatus.unavailable := by
  rcases h with h | h
  · subst h
    cases sc <;> simp [validateTransferabilityFromCache]
  · subst h
    cases bc <;> simp [validateTransferabilityFromCache]

/-! ## Claim C1 (amended): `unavailable` metadata is surfaced, not rejected -/

/-- C1 (amended): when the currency-metadata cache is missing (capability
absent or fetch failed) for the buy or the sell venue, the transferability
check returns status `unavailable`, but the validator does **not** reject for
it: every transfer record the result carries has status `unavailable`, a
validated result always carries one, and a rejected result either carries no
transfer record (an earlier check failed) or carries a `realProfitUsd`
(the real-profit check failed) — never a transfer-status rejection. -/
theorem unavailable_transfer_not_rejecting (w : World) (opp o : ArbitrageOpportunity)
    (buyEx sellEx : ExchangeConfig)
    (hbuy : lookupExchange w.exchanges opp.buy.exchange = some buyEx)
    (hsell : lookupExchange w.exchanges opp.sell.exchange = some sellEx)
    (hcur : currenciesFor w buyEx.name = none ∨ currenciesFor w sellEx.name = none)
    (ho : validateOne w opp = some o) :
    (∀ t, transferOf o = some t → t.status = TStatus.unavailable) ∧
    (validationStatus o = some VStatus.validated → (transferOf o).isSome) ∧
    (validationStatus o = some VStatus.rejected →
      transferOf o = none ∨ o.realProfitUsd.isSome) := by
  have htr : (validateTransferabilityFromCache (currenciesFor w buyEx.name)
      (currenciesFor w sellEx.name) buyEx sellEx
      (baseFromSymbolUsdt opp.symbol)).status = TStatus.unavailable :=
    transfer_unavailable_of_missing _ _ _ _ _ hcur
  simp only [validateOne, hbuy, hsell] at ho
  repeat' split at ho
  all_goals injection ho with hinj
  all_goals subst hinj
  all_goals try (refine ⟨?_, ?_, ?_⟩ <;>
    simp [transferOf, attachValidation, validationStatus, htr])
  all_goals (exfalso; simp_all)

/-! ## Claim C7 (amended): a liquidity failure rejects without fetching books -/

/-- C7 (amended): a candidate whose buy-leg 24h quote volume is known and
below `MIN_24H_VOLUME` is rejected with the corresponding volume reason among
its reasons; the reasons of such a rejection come only from the joint scope of
the liquidity check and the order-book-capability pre-check (the two accumulate
before the first return), and the order-book fetch is never attempted: the
result is unchanged under arbitrary replacement of the recorded order books. -/
theorem liquidity_failure_short_circuits (w : World) (opp : ArbitrageOpportunity)
    (buyEx sellEx : ExchangeConfig) (v : ℚ)
    (hbuy : lookupExchange w.exchanges opp.buy.exchange = some buyEx)
    (hsell : lookupExchange w.exchanges opp.sell.exchange = some sellEx)
    (hvol : tickerVolume w buyEx.name opp.symbol = some v)
    (hlow : v < MIN_24H_VOLUME) :
    ∃ o, validateOne w opp = some o ∧
      validationStatus o = some VStatus.rejected ∧
      ("buy volume_24h < MIN_24H_VOLUME (" ++ toString v ++ ")") ∈ validationReasons o ∧
      validationReasons o =
        volumeReasons (some v) (tickerVolume w sellEx.name opp.symbol) buyEx.name sellEx.name ++
          bookCapabilityReasons buyEx sellEx ∧
      (∀ bks, validateOne { w with books := bks } opp = validateOne w opp) := by
  have hmem : ("buy volume_24h < MIN_24H_VOLUME (" ++ toString v ++ ")") ∈
      volumeReasons (some v) (tickerVolume w sellEx.name opp.symbol) buyEx.name sellEx.name := by
    simp [volumeReasons, hlow]
  have hne : ¬ (volumeReasons (some v) (tickerVolume w sellEx.name opp.symbol)
      buyEx.name sellEx.name ++ bookCapabilityReasons buyEx sellEx).isEmpty = true := by
    intro hcon
    rw [List.isEmpty_iff] at hcon
    exact absurd (List.mem_append_left _ hmem) (by rw [hcon]; simp)
  have hrun : ∀ (w' : World), w'.exchanges = w.exchanges → w'.tickers = w.tickers →
      validateOne w' opp = some (attachValidation opp VStatus.rejected
        (volumeReasons (some v) (tickerVolume w sellEx.name opp.symbol) buyEx.name sellEx.name ++
          bookCapabilityReasons buyEx sellEx)
        (some v) (tickerVolume w sellEx.name opp.symbol) none none none) := by
    intro w' hex htk
    have hbv : tickerVolume w' buyEx.name opp.symbol = some v := by
      unfold tickerVolume
      rw [htk]
      exact hvol
    have hsv : tickerVolume w' sellEx.name opp.symbol =
        tickerVolume w sellEx.name opp.symbol := by
      unfold tickerVolume
      rw [htk]
    have hbuy' : lookupExchange w'.exchanges opp.buy.exchange = some buyEx := by
      rw [hex]
      exact hbuy
    have hsell' : lookupExchange w'.exchanges opp.sell.exchange = some sellEx := by
      rw [hex]
      exact hsell
    simp only [validateOne, hbuy', hsell', hbv, hsv]
    rw [if_pos hne]
  refine ⟨_, hrun w rfl rfl, ?_, ?_, ?_, ?_⟩
  · exact attachValidation_status _ _ _ _ _ _ _ _
  · simp only [validationReasons, attachValidation]
    simpa using List.mem_append_left _ hmem
  · simp [validationReasons, attachValidation]
  · intro bks
    rw [hrun { w with books := bks } rfl rfl, hrun w rfl rfl]

/-! ## Claim C9: blocked exactly on disjoint enabled-network sets -/

/-- The upper-cased names of the withdraw-enabled networks
(`buyWithdraw` keys). -/
def withdrawKeys (nets : List CurrencyNetworkInfo) : List String :=
  (nets.filter (fun n => n.withdrawEnabled.getD false)).map (fun n => n.network.toUpper)

/-- The upper-cased names of the deposit-enabled networks
(`sellDeposit` keys). -/
def depositKeys (nets : List CurrencyNetworkInfo) : List String :=
  (nets.filter (fun n => n.depositEnabled.getD false)).map (fun n => n.network.toUpper)

/-- C9: with currency metadata present on both venues and non-empty network
lists, the transferability check returns `blocked` exactly when the
withdraw-enabled networks of the buy venue and the deposit-enabled networks of
the sell venue are disjoint under case-insensitive (upper-cased) comparison;
otherwise it returns `ok` recording a network that is withdraw-enabled on the
buy venue and deposit-enabled on the sell venue. -/
theorem transferability_blocked_iff_disjoint
    (bt st : List (String × CurrencyInfo)) (buyEx sellEx : ExchangeConfig) (cur : String)
    (buyInfo sellInfo : CurrencyInfo) (bNets sNets : List CurrencyNetworkInfo)
    (hbi : mapGet bt cur.toUpper = some buyInfo) (hsi : mapGet st cur.toUpper = some sellInfo)
    (hbn : buyInfo.networks = some bNets) (hsn : sellInfo.networks = some sNets)
    (hbne : bNets ≠ []) (hsne : sNets ≠ []) :
    ((validateTransferabilityFromCache (some bt) (some st) buyEx sellEx cur).status =
        TStatus.blocked ↔
      ∀ nb ∈ withdrawKeys bNets, nb ∉ depositKeys sNets) ∧
    ((validateTransferabilityFromCache (some bt) (some st) buyEx sellEx cur).status ≠
        TStatus.blocked →
      ∃ net, (validateTransferabilityFromCache (some bt) (some st) buyEx sellEx cur) =
          { status := TStatus.ok, network := some net, reason := none } ∧
        (∃ n1 ∈ bNets, n1.withdrawEnabled = some true ∧ n1.network.toUpper = net) ∧
        (∃ n2 ∈ sNets, n2.depositEnabled = some true ∧ n2.network.toUpper = net)) := by
  have hnempty : ¬ (((mapGet bt cur.toUpper).bind (fun i => i.networks)).getD []).isEmpty = true ∨
      True := Or.inr trivial
  simp only [validateTransferabilityFromCache, hbi, hsi, Option.some_bind, hbn, hsn,
    Option.getD_some]
  rw [if_neg (by simp [hbn, hsn, List.isEmpty_iff, hbne, hsne])]
  rcases hfind : (withdrawKeys bNets).find?
      (fun net => (depositKeys sNets).contains net) with _ | net
  · have hfind' := hfind
    unfold withdrawKeys depositKeys at hfind'
    rw [hfind']
    constructor
    · constructor
      · intro _ nb hnb hcon
        have := List.find?_eq_none.mp hfind nb hnb
        simp at this
        exact this hcon
      · intro _
        rfl
    · intro hne
      exact absurd rfl hne
  · have hfind' := hfind
    unfold withdrawKeys depositKeys at hfind'
    rw [hfind']
    have hmem : net ∈ withdrawKeys bNets := List.mem_of_find?_eq_some hfind
    have hpred : ((depositKeys sNets).contains net) = true := List.find?_some hfind
    have hdep : net ∈ depositKeys sNets := by
      simpa using hpred
    constructor
    · constructor
      · intro hcon
        exact absurd hcon (by simp)
      · intro hdisj
        exact absurd hdep (hdisj net hmem)
    · intro _
      refine ⟨net, rfl, ?_, ?_⟩
      · obtain ⟨n1, hn1f, hn1u⟩ := List.mem_map.mp hmem
        obtain ⟨hn1m, hn1w⟩ := List.mem_filter.mp hn1f
        refine ⟨n1, hn1m, ?_, hn1u⟩
        rcases hw : n1.withdrawEnabled with _ | b
        · rw [hw] at hn1w
          simp at hn1w
        · rw [hw] at hn1w
          simp at hn1w
          rw [hn1w]
      · obtain ⟨n2, hn2f, hn2u⟩ := List.mem_map.mp hdep
        obtain ⟨hn2m, hn2w⟩ := List.mem_filter.mp hn2f
        refine ⟨n2, hn2m, ?_, hn2u⟩
        rcases hw : n2.depositEnabled with _ | b
        · rw [hw] at hn2w
          simp at hn2w
        · rw [hw] at hn2w
          simp at hn2w
          rw [hn2w]

/-! ## Pair Registry and Price Aggregator (`collectPairs`, `collectPrices`)

The provider calls are `async`; `Promise.all` rejects as soon as any member
rejects, and neither `collectPairs` nor `collectPrices` (nor their caller
`getArbitrageOpportunities`) has a `try`/`catch`.  A provider call is modelled
as an `Except` outcome; the `Promise.all` + `await` pattern is the `Except`
monad's `mapM`/`foldlM` (an `.error` anywhere makes the whole collection
`.error`).  Callback completion order is modelled as provider-list order. -/

/-- `Pair` from `src/types/exchange.ts`. -/
structure Pair where
  base : String
  quote : String
  symbol : String
deriving DecidableEq, Repr

/-- A venue's required calls, recorded with the outcome they produce in this
scan.  Adapters that wrap their HTTP calls in `try`/`catch` (e.g. `binanceUs`)
only ever produce `.ok` outcomes; adapters without one (e.g. `binance`,
`kraken`, `okx`) can produce `.error`. -/
structure Provider where
  name : String
  getPairs : Except String (List Pair)
  getPrices : List String → Except String (List (String × JsNum))

/-- `map.get(symbol)!.push(exchange)` with first-insertion key order. -/
def addPairVenue (m : List (String × List String)) (symbol name : String) :
    List (String × List String) :=
  if (m.find? (fun e => e.1 == symbol)).isSome then
    m.map (fun e => if e.1 == symbol then (e.1, e.2 ++ [name]) else e)
  else m ++ [(symbol, [name])]

/-- `collectPairs` (lines 21-39): `Promise.all` over every provider's
`getPairs()` — no catch, so one rejection rejects the whole scan — then build
`symbol → [venue names]`. -/
def collectPairs (providers : List Provider) :
    Except String (List (String × List String)) := do
  let pairsByExchange ← providers.mapM (fun p => do
    let pairs ← p.getPairs
    pure (p.name, pairs))
  pure (pairsByExchange.foldl
    (fun m r => r.2.foldl (fun m pair => addPairVenue m pair.symbol r.1) m) [])

/-- `symbolsForExchange` (lines 113-117). -/
def symbolsForExchange (pairMap : List (String × List String)) (name : String) :
    List String :=
  (pairMap.filter (fun e => e.2.contains name)).map (fun e => e.1)

/-- `prices[symbol] ??= {}; prices[symbol][exchange.name] = price`. -/
def setPrice (m : List (String × List (String × JsNum))) (symbol exchangeName : String)
    (price : JsNum) : List (String × List (String × JsNum)) :=
  if (m.find? (fun e => e.1 == symbol)).isSome then
    m.map (fun e =>
      if e.1 == symbol then
        (e.1,
          if (e.2.find? (fun kv => kv.1 == exchangeName)).isSome then
            e.2.map (fun kv => if kv.1 == exchangeName then (kv.1, price) else kv)
          else e.2 ++ [(exchangeName, price)])
      else e)
  else m ++ [(symbol, [(exchangeName, price)])]

/-- `collectPrices` (lines 41-58): for each provider, the symbols it trades
(skip when empty), one batched `getPrices` call — again no catch — merged
into `PricesBySymbol`. -/
def collectPrices (providers : List Provider)
    (pairMap : List (String × List String)) :
    Except String (List (String × List (String × JsNum))) :=
  providers.foldlM (fun acc p =>
    let symbols := symbolsForExchange pairMap p.name
    if symbols.isEmpty then pure acc
    else do
      let eps ← p.getPrices symbols
      pure (eps.foldl (fun a e => setPrice a e.1 p.name e.2) acc)) []

/-- Modelled outcome of `binance.getPairs` (`exchangeConfigs.ts` lines 17-33):
the HTTP outcome is passed straight through — there is **no** `try`/`catch`
(contrast `binanceUs.getPairs`, lines 49-68, which catches and returns `[]`). -/
def binanceGetPairs (httpResult : Except String (List Pair)) :
    Except String (List Pair) :=
  httpResult

/-- `binanceUs.getPairs`: catches and degrades to the empty list. -/
def binanceUsGetPairs (httpResult : Except String (List Pair)) :
    Except String (List Pair) :=
  match httpResult with
  | .ok pairs => .ok pairs
  | .error _ => .ok []

/-- `binance.getPrices` (lines 34-43): keep the requested pairs of the full
`Number()`-parsed ticker list.  There is **no** `Number.isFinite` filter here
(most other adapters have one, e.g. kraken lines 218-229) and no catch. -/
def binanceGetPrices (tickerPayload : List (String × JsNum)) (pairs : List String) :
    Except String (List (String × JsNum)) :=
  .ok (tickerPayload.filter (fun e => pairs.contains e.1))

/-- A provider in the style of `binanceUs`: every outcome caught. -/
def okProvider : Provider :=
  { name := "binanceus",
    getPairs := binanceUsGetPairs (.ok [{ base := "BTC", quote := "USDT", symbol := "BTCUSDT" }]),
    getPrices := fun _ => .ok [("BTCUSDT", JsNum.fin 50000)] }

/-- The `binance` provider when its HTTP requests fail: the rejections flow
out of the adapter unhandled. -/
def failingBinance : Provider :=
  { name := "binance",
    getPairs := binanceGetPairs (.error "connect ETIMEDOUT"),
    getPrices := fun _ => .error "connect ETIMEDOUT" }

/-! ## Claim C5 (code bug): a venue I/O failure aborts the scan -/

/-- C5 (code bug): with one healthy provider and one whose I/O fails inside an
adapter that lacks `try`/`catch` (as `binance.getPairs`/`getPrices` do), both
`collectPairs` and `collectPrices` propagate the error — the healthy
provider's entries are lost and the scan aborts — contradicting the spec's
"a provider that fails simply contributes no entries; never abort the scan". -/
theorem collector_propagates_provider_error :
    collectPairs [okProvider, failingBinance] = .error "connect ETIMEDOUT" ∧
    collectPrices [okProvider, failingBinance]
        [("BTCUSDT", ["binanceus", "binance"])] = .error "connect ETIMEDOUT" ∧
    collectPairs [okProvider] =
      .ok [("BTCUSDT", ["binanceus"])] := by
  refine ⟨rfl, rfl, rfl⟩

/-! ## Claim C6 (code bug): `binance` does not drop non-finite prices -/

/-- C6 (code bug): a `binance` ticker entry whose price parses to `NaN`
(`Number("not-a-number")`) is **not** dropped — `binance.getPrices` has no
`Number.isFinite` filter — and `collectPrices` merges it, so the non-finite
price appears in the resulting `PricesBySymbol`, contradicting the spec's
"non-finite prices are silently dropped". -/
theorem nonfinite_binance_price_reaches_prices :
    collectPrices
        [{ name := "binance",
           getPairs := .ok [{ base := "BTC", quote := "USDT", symbol := "BTCUSDT" }],
           getPrices := binanceGetPrices [("BTCUSDT", JsNum.nan)] }]
        [("BTCUSDT", ["binance"])] =
      .ok [("BTCUSDT", [("binance", JsNum.nan)])] ∧
    JsNum.nan.isFinite = false := by
  refine ⟨rfl, rfl⟩

/-! ## A concrete scan world

Two venues quoting BTCUSDT at 100 and 110, identical 0.1% taker fees, ample
24h volume, exactly-sufficient order books, and no currency metadata on the
buy venue (`alpha` has a cached `null`; `beta` has no `getCurrencies`). -/

def alphaEx : ExchangeConfig :=
  { name := "alpha", fees := { takerFeePercent := 1 / 10 }, hasGetOrderBook := true }

def betaEx : ExchangeConfig :=
  { name := "beta", fees := { takerFeePercent := 1 / 10 }, hasGetOrderBook := true }

def W0 : World :=
  { exchanges := [alphaEx, betaEx],
    prices := [("BTCUSDT", [("alpha", 100), ("beta", 110)])],
    tickers := [("alpha", [("BTCUSDT", { quoteVolume24h := some 100000 })]),
                ("beta", [("BTCUSDT", { quoteVolume24h := some 100000 })])],
    currencies := [("alpha", none)],
    books := [("alpha", [("BTCUSDT",
                { bids := [], asks := [(JsNum.fin 100, JsNum.fin 10)] })]),
              ("beta", [("BTCUSDT",
                { bids := [(JsNum.fin 110, JsNum.fin 10)], asks := [] })])] }

/-- The candidate `findArbitrage` detects in `W0`. -/
def W0candidate : ArbitrageOpportunity :=
  { symbol := "BTCUSDT", min := 100, max := 110, diff := 10, netDiff := 489 / 50,
    buy := { exchange := "alpha", price := 100, effectivePrice := 1001 / 10,
             feePercentApplied := 1 / 10 },
    sell := { exchange := "beta", price := 110, effectivePrice := 10989 / 100,
              feePercentApplied := 1 / 10 },
    exchanges := [("alpha", 100), ("beta", 110)] }

/-- The validated opportunity the scan of `W0` emits. -/
def W0validated : ArbitrageOpportunity :=
  { symbol := "BTCUSDT", min := 100, max := 110, diff := 10, netDiff := 489 / 50,
    buy := { exchange := "alpha", price := 100, effectivePrice := 1001 / 10,
             feePercentApplied := 1 / 10 },
    sell := { exchange := "beta", price := 110, effectivePrice := 10989 / 100,
              feePercentApplied := 1 / 10 },
    exchanges := [("alpha", 100), ("beta", 110)],
    tradeAmountUsd := some 100,
    realProfitUsd := some (979 / 100),
    validation := some
      { status := VStatus.validated,
        reasons := none,
        buy := some { bestPrice := some 100, executablePrice := some 100,
                      slippagePercent := some 0, volume24hQuote := some 100000 },
        sell := some { bestPrice := some 110, executablePrice := some 110,
                       slippagePercent := some 0, volume24hQuote := some 100000 },
        transfer := some
          { status := TStatus.unavailable, network := none,
            reason := some "fetchCurrencies not available (public API) on alpha" } } }

theorem W0_detect_eval :
    findArbitrage W0.exchanges W0.prices DEFAULT_MIN_DIFF_PERCENT = [W0candidate] := by
  have hfa : (lookupExchange W0.exchanges "alpha").map (fun x => x.fees) =
      some alphaEx.fees := rfl
  have hfb : (lookupExchange W0.exchanges "beta").map (fun x => x.fees) =
      some betaEx.fees := rfl
  have hdet : detectSymbol W0.exchanges DEFAULT_MIN_DIFF_PERCENT "BTCUSDT"
      [("alpha", 100), ("beta", 110)] = some W0candidate := by
    simp only [detectSymbol, hfa, hfb]
    norm_num [hfa, hfb, buildLeg, reduceBestBuy, reduceBestSell, listMinQ, listMaxQ,
      netDiffQ, alphaEx, betaEx, W0candidate, DEFAULT_MIN_DIFF_PERCENT, round2, round_eq]
  have hpr : W0.prices = [("BTCUSDT", [("alpha", 100), ("beta", 110)])] := rfl
  rw [findArbitrage, hpr, List.filterMap_cons, hdet]
  rfl

theorem W0_validateOne_eval : validateOne W0 W0candidate = some W0validated := by
  have hbuyEx : lookupExchange W0.exchanges W0candidate.buy.exchange = some alphaEx := rfl
  have hsellEx : lookupExchange W0.exchanges W0candidate.sell.exchange = some betaEx := rfl
  have hbv : tickerVolume W0 alphaEx.name W0candidate.symbol = some 100000 := rfl
  have hsv : tickerVolume W0 betaEx.name W0candidate.symbol = some 100000 := rfl
  have hvr : volumeReasons (some 100000) (some 100000) alphaEx.name betaEx.name = [] := by
    norm_num [volumeReasons, MIN_24H_VOLUME]
  have hcr : bookCapabilityReasons alphaEx betaEx = [] := rfl
  have hbook_a : bookFor W0 alphaEx.name W0candidate.symbol =
      some { bids := [], asks := [(JsNum.fin 100, JsNum.fin 10)] } := rfl
  have hbook_b : bookFor W0 betaEx.name W0candidate.symbol =
      some { bids := [(JsNum.fin 110, JsNum.fin 10)], asks := [] } := rfl
  have hfill_buy : vwapBuyForQuoteAmount
      { bids := [], asks := [(JsNum.fin 100, JsNum.fin 10)] } DEFAULT_TRADE_AMOUNT =
      some { executablePrice := 100, baseAmount := 1 } := by
    have hvl : validLevels [(JsNum.fin 100, JsNum.fin 10)] = [(100, 10)] := by
      simp [validLevels, levelOk, List.filterMap_cons]
    rw [vwapBuyForQuoteAmount]
    norm_num [hvl, buyWalk, DEFAULT_TRADE_AMOUNT]
  have hfill_sell : vwapSellForBaseAmount
      { bids := [(JsNum.fin 110, JsNum.fin 10)], asks := [] } 1 =
      some { executablePrice := 110, baseAmount := 1 } := by
    have hvl : validLevels [(JsNum.fin 110, JsNum.fin 10)] = [(110, 10)] := by
      simp [validLevels, levelOk, List.filterMap_cons]
    rw [vwapSellForBaseAmount]
    norm_num [hvl, sellWalk]
  have hcur_a : currenciesFor W0 alphaEx.name = none := rfl
  have hcur_b : currenciesFor W0 betaEx.name = none := rfl
  have htrans : validateTransferabilityFromCache none none alphaEx betaEx
      (baseFromSymbolUsdt W0candidate.symbol) =
      { status := TStatus.unavailable, network := none,
        reason := some "fetchCurrencies not available (public API) on alpha" } := rfl
  simp only [validateOne, hbuyEx, hsellEx, hbv, hsv, hvr, hcr, List.append_nil,
    List.isEmpty_nil, Bool.not_false, hbook_a, hbook_b, headPrice, JsNum.finite?,
    hfill_buy, hfill_sell, hcur_a, hcur_b, htrans]
  norm_num [W0candidate, W0validated, MAX_SLIPPAGE_PERCENT, MIN_REAL_PROFIT_USD,
    DEFAULT_TRADE_AMOUNT, round2, round_eq]
  rintro (h | h) <;> exact absurd h (by decide)

theorem W0_scan_eval : getArbitrageOpportunities W0 none = [W0validated] := by
  have h1 : getArbitrageOpportunities W0 none =
      validateOpportunities W0 (findArbitrage W0.exchanges W0.prices
        DEFAULT_MIN_DIFF_PERCENT) := rfl
  rw [h1, W0_detect_eval, validateOpportunities, List.filterMap_cons, W0_validateOne_eval]
  rfl

/-- C1 counterexample to the claim as stated: in `W0` the buy venue's currency
metadata is missing, so the transferability status is `unavailable`
("fetchCurrencies not available") — yet the scan emits the opportunity as
`validated`, carrying the `unavailable` transfer record; the validator does
not treat `unavailable` as a rejection condition (only `unknown` and
`blocked` reject, `arbitrageService.ts` line 276). -/
theorem scan_surfaces_unavailable_transfer_counterexample :
    (getArbitrageOpportunities W0 none).map
        (fun o => (o.symbol, validationStatus o, transferOf o)) =
      [("BTCUSDT", some VStatus.validated,
        some { status := TStatus.unavailable, network := none,
               reason := some "fetchCurrencies not available (public API) on alpha" })] := by
  rw [W0_scan_eval]
  rfl

/-- Witness for C1's amended theorem at the concrete world `W0`. -/
theorem unavailable_transfer_not_rejecting_witness :
    (∀ t, transferOf W0validated = some t → t.status = TStatus.unavailable) ∧
    (validationStatus W0validated = some VStatus.validated → (transferOf W0validated).isSome) ∧
    (validationStatus W0validated = some VStatus.rejected →
      transferOf W0validated = none ∨ W0validated.realProfitUsd.isSome) :=
  unavailable_transfer_not_rejecting W0 W0candidate W0validated alphaEx betaEx
    rfl rfl (Or.inl rfl) W0_validateOne_eval

/-- Witness for C2 at the concrete world `W0`. -/
theorem scan_output_meets_thresholds_witness :
    (none : Option ℚ).getD DEFAULT_MIN_DIFF_PERCENT ≤
        netDiffQ W0validated.buy W0validated.sell ∧
    ∃ r, W0validated.realProfitUsd = some r ∧ MIN_REAL_PROFIT_USD ≤ r :=
  scan_output_meets_thresholds W0 none W0validated
    (by rw [W0_scan_eval]; exact List.mem_singleton.mpr rfl)

/-- Witness for C3's per-opportunity clause at the concrete detection
input of `W0`. -/
theorem detection_leg_selection_witness :
    ∃ eps, (W0candidate.symbol, eps) ∈ W0.prices ∧ 2 ≤ eps.length ∧
      (∃ i : ℕ, (detectionLegs W0.exchanges .buy eps)[i]? = some W0candidate.buy ∧
        (∀ j, j < i → ∀ l, (detectionLegs W0.exchanges .buy eps)[j]? = some l →
          W0candidate.buy.effectivePrice < l.effectivePrice)) ∧
      (∀ l ∈ detectionLegs W0.exchanges .buy eps,
        W0candidate.buy.effectivePrice ≤ l.effectivePrice) ∧
      (∃ i : ℕ, (detectionLegs W0.exchanges .sell eps)[i]? = some W0candidate.sell ∧
        (∀ j, j < i → ∀ l, (detectionLegs W0.exchanges .sell eps)[j]? = some l →
          l.effectivePrice < W0candidate.sell.effectivePrice)) ∧
      (∀ l ∈ detectionLegs W0.exchanges .sell eps,
        l.effectivePrice ≤ W0candidate.sell.effectivePrice) ∧
      DEFAULT_MIN_DIFF_PERCENT ≤ netDiffQ W0candidate.buy W0candidate.sell ∧
      W0candidate.netDiff = round2 (netDiffQ W0candidate.buy W0candidate.sell) :=
  detection_leg_selection.2 W0.exchanges DEFAULT_MIN_DIFF_PERCENT W0.prices W0candidate
    (by rw [W0_detect_eval]; exact List.mem_singleton.mpr rfl)

/-! ## A scan world where two validator checks fail at once -/

def betaNoBook : ExchangeConfig :=
  { name := "beta", fees := { takerFeePercent := 1 / 10 }, hasGetOrderBook := false }

/-- Buy venue `alpha` with thin 24h volume, sell venue `beta` without
`getOrderBook`. -/
def W3 : World :=
  { exchanges := [alphaEx, betaNoBook],
    prices := [],
    tickers := [("alpha", [("BTCUSDT", { quoteVolume24h := some 10000 })]),
                ("beta", [("BTCUSDT", { quoteVolume24h := some 100000 })])],
    currencies := [],
    books := [] }

/-- C7 counterexample to the claim as stated: in `W3` the candidate fails the
buy-side liquidity check (10000 < 50000), and the single `rejected` record also
carries the order-book capability reason for `beta` — the two checks share one
`reasons` accumulator and one return (lines 188-205), so the rejection is not
attributable to the liquidity check alone. -/
theorem liquidity_rejection_carries_capability_reason_counterexample :
    (validateOne W3 W0candidate).map (fun o => (validationStatus o, validationReasons o)) =
      some (some VStatus.rejected,
        ["buy volume_24h < MIN_24H_VOLUME (" ++ toString (10000 : ℚ) ++ ")",
         "order book unsupported on beta"]) := by
  have hb : lookupExchange W3.exchanges W0candidate.buy.exchange = some alphaEx := rfl
  have hs : lookupExchange W3.exchanges W0candidate.sell.exchange = some betaNoBook := rfl
  have hbv : tickerVolume W3 alphaEx.name W0candidate.symbol = some 10000 := rfl
  have hsv : tickerVolume W3 betaNoBook.name W0candidate.symbol = some 100000 := rfl
  have hvr : volumeReasons (some 10000) (some 100000) alphaEx.name betaNoBook.name =
      ["buy volume_24h < MIN_24H_VOLUME (" ++ toString (10000 : ℚ) ++ ")"] := by
    norm_num [volumeReasons, MIN_24H_VOLUME]
  have hcr : bookCapabilityReasons alphaEx betaNoBook =
      ["order book unsupported on " ++ betaNoBook.name] := rfl
  simp only [validateOne, hb, hs, hbv, hsv, hvr, hcr]
  simp [attachValidation, validationStatus, validationReasons, betaNoBook]

/-- Witness for C7's amended theorem at the concrete world `W3`. -/
theorem liquidity_failure_short_circuits_witness :
    ∃ o, validateOne W3 W0candidate = some o ∧
      validationStatus o = some VStatus.rejected ∧
      ("buy volume_24h < MIN_24H_VOLUME (" ++ toString (10000 : ℚ) ++ ")") ∈
        validationReasons o ∧
      validationReasons o =
        volumeReasons (some 10000) (tickerVolume W3 betaNoBook.name W0candidate.symbol)
          alphaEx.name betaNoBook.name ++ bookCapabilityReasons alphaEx betaNoBook ∧
      (∀ bks, validateOne { W3 with books := bks } W0candidate = validateOne W3 W0candidate) :=
  liquidity_failure_short_circuits W3 W0candidate alphaEx betaNoBook 10000 rfl rfl rfl
    (by norm_num [MIN_24H_VOLUME])

/-! ## Concrete currency tables for the transferability check -/

def btcBuyNets : List CurrencyNetworkInfo := [{ network := "erc20", withdrawEnabled := some true }]

def btcSellNets : List CurrencyNetworkInfo := [{ network := "ERC20", depositEnabled := some true }]

def btcBuyTable : List (String × CurrencyInfo) :=
  [("btc".toUpper, { code := "BTC", networks := some btcBuyNets })]

def btcSellTable : List (String × CurrencyInfo) :=
  [("btc".toUpper, { code := "BTC", networks := some btcSellNets })]

/-- Witness for C9 at concrete tables whose network names differ in case. -/
theorem transferability_blocked_iff_disjoint_witness :
    ((validateTransferabilityFromCache (some btcBuyTable) (some btcSellTable) alphaEx betaEx
          "btc").status = TStatus.blocked ↔
      ∀ nb ∈ withdrawKeys btcBuyNets, nb ∉ depositKeys btcSellNets) ∧
    ((validateTransferabilityFromCache (some btcBuyTable) (some btcSellTable) alphaEx betaEx
          "btc").status ≠ TStatus.blocked →
      ∃ net, validateTransferabilityFromCache (some btcBuyTable) (some btcSellTable) alphaEx
            betaEx "btc" = { status := TStatus.ok, network := some net, reason := none } ∧
        (∃ n1 ∈ btcBuyNets, n1.withdrawEnabled = some true ∧ n1.network.toUpper = net) ∧
        (∃ n2 ∈ btcSellNets, n2.depositEnabled = some true ∧ n2.network.toUpper = net)) :=
  transferability_blocked_iff_disjoint btcBuyTable btcSellTable alphaEx betaEx "btc"
    { code := "BTC", networks := some btcBuyNets } { code := "BTC", networks := some btcSellNets }
    btcBuyNets btcSellNets
    (by simp [btcBuyTable, mapGet]) (by simp [btcSellTable, mapGet]) rfl rfl
    (by simp [btcBuyNets]) (by simp [btcSellNets])
